import Mathlib

/-!
# SearchingTree: an unbalanced binary search tree with an in-order iterator

A shallow embedding of `src/main.cpp`.

* A `std::shared_ptr<TreeNode>` is modelled by the inductive type `TreeNode`:
  `TreeNode.null` is `nullptr`, `TreeNode.mk key_ value_ left right` is a pointer to a
  node with these four fields.  The heap is unfolded: a pointer is identified with the
  subtree it points to, and pointer equality is equality of these subtrees (in a tree
  whose keys are pairwise distinct two different nodes are different subtrees).
* The `while` loops are structural recursions on the pointer they walk down.  Where the
  code writes through a pointer found by a loop (`parent->left = ...`), the loop records
  the nodes it went through (`Step`) and the write is propagated up to `top` by `relink`.
* A dereference of `nullptr` makes the operation return `none`.
* `find` ends with `return nullptr;`, which converts to no `TreeIterator`; `find` returns
  `none` there.
* Loops whose termination is not structural (the client loop `for (it = b; it != e; ++it)`)
  take a fuel argument and return `none` when it runs out.
-/

namespace SearchingTree

/-- A pointer to a tree node (`std::shared_ptr<TreeNode>`): either `nullptr` or a node
with its key, its value and its two children. -/
inductive TreeNode (K V : Type) where
  | null : TreeNode K V
  | mk (key_ : K) (value_ : V) (left right : TreeNode K V) : TreeNode K V
  deriving DecidableEq

variable {K V : Type}

/-- The test `p == nullptr`. -/
def TreeNode.isNull : TreeNode K V → Bool
  | .null => true
  | .mk _ _ _ _ => false

/-! ## insert (main.cpp 130-162) -/

/-- The `while` loop of `insert`, started at a non-null `cur_node`; the result is the
node `cur_node` points to after the loop has written into the heap. -/
def insertLoop [LinearOrder K] (key : K) (value : V) : TreeNode K V → TreeNode K V
  | .null => .null
  | .mk k v l r =>
    if key < k then
      if l.isNull then .mk k v (.mk key value .null .null) r
      else .mk k v (insertLoop key value l) r
    else if key > k then
      if r.isNull then .mk k v l (.mk key value .null .null)
      else .mk k v l (insertLoop key value r)
    else .mk k value l r

/-- The method `insert(key, value)`: the new value of `top`. -/
def insert [LinearOrder K] (key : K) (value : V) (top : TreeNode K V) : TreeNode K V :=
  if top.isNull then .mk key value .null .null
  else insertLoop key value top

/-! ## erase (main.cpp 164-235) -/

/-- One iteration of a descending loop: the node that was left (its four fields) and the
side on which the loop went on. -/
structure Step (K V : Type) where
  key_ : K
  value_ : V
  left : TreeNode K V
  right : TreeNode K V
  turn_left : Bool

/-- Propagation of a heap write to `top`: `n` is the new content of the node the loop
stopped at (or of the node written to), `path` the nodes above it, innermost first. -/
def relink : List (Step K V) → TreeNode K V → TreeNode K V
  | [], n => n
  | s :: rest, n =>
    relink rest (if s.turn_left then .mk s.key_ s.value_ n s.right
                 else .mk s.key_ s.value_ s.left n)

/-- The search loop of `erase` (lines 169-183): returns the final `cur_node` and the
nodes gone through; the head of the list is `parent` together with `turn_left`, the
empty list is `parent == nullptr`. -/
def eraseSearch [LinearOrder K] (key : K) :
    TreeNode K V → List (Step K V) → TreeNode K V × List (Step K V)
  | .null, path => (.null, path)
  | .mk k v l r, path =>
    if key < k then eraseSearch key l (⟨k, v, l, r, true⟩ :: path)
    else if key > k then eraseSearch key r (⟨k, v, l, r, false⟩ :: path)
    else (.mk k v l r, path)

/-- The loop of the two-children case (lines 217-221): returns the final `max_left` and
the nodes gone through below `cur_node`; the head of the list is `max_left_parent`, the
empty list is `turn_right == false` (then `max_left_parent` is `cur_node`). -/
def maxLeftLoop : TreeNode K V → List (Step K V) → TreeNode K V × List (Step K V)
  | .null, path => (.null, path)
  | .mk k v l r, path =>
    if r.isNull then (.mk k v l r, path)
    else maxLeftLoop r (⟨k, v, l, r, false⟩ :: path)

/-- The two-children case of `erase` (lines 212-234): the new content of `cur_node`,
whose children are `cl` and `cr`. -/
def eraseBoth (cl cr : TreeNode K V) : Option (TreeNode K V) :=
  match maxLeftLoop cl [] with
  | (.null, _) => none
  | (.mk mk_ mv ml _, []) => some (.mk mk_ mv ml cr)
  | (.mk mk_ mv ml _, s :: rest) =>
    some (.mk mk_ mv (relink rest (.mk s.key_ s.value_ s.left ml)) cr)

/-- The method `erase(key)`: the new value of `top`, or `none` when the code dereferences
a null `parent`.  In the one-child case both branches of `if (turn_left)` write
`parent->left`, as in the source; when the node was the right child it stays in
`parent->right`, and the child now reachable twice appears twice in the unfolded tree. -/
def erase [LinearOrder K] (key : K) (top : TreeNode K V) : Option (TreeNode K V) :=
  match eraseSearch key top [] with
  | (.null, _) => some top
  | (.mk _ _ cl cr, path) =>
    if cl.isNull && cr.isNull then
      match path with
      | [] => some .null
      | s :: rest =>
        if s.turn_left then some (relink rest (.mk s.key_ s.value_ .null s.right))
        else some (relink rest (.mk s.key_ s.value_ s.left .null))
    else if cl.isNull || cr.isNull then
      match path with
      | [] => none
      | s :: rest =>
        if s.turn_left then
          some (relink rest (.mk s.key_ s.value_ (if cl.isNull then cr else cl) s.right))
        else
          some (relink rest (.mk s.key_ s.value_ (if cl.isNull then cr else cl) s.right))
    else
      match eraseBoth cl cr with
      | none => none
      | some cur => some (relink path cur)

/-! ## Iterators (main.cpp 30-126) -/

/-- The class `TreeIterator`: the node pointed at and the top of the tree. -/
structure TreeIterator (K V : Type) where
  node_ : TreeNode K V
  top_ : TreeNode K V
  deriving DecidableEq

/-- The comparison `operator==` (lines 54-56): only `node_` is compared. -/
def TreeIterator.operator_eq [DecidableEq K] [DecidableEq V] (a b : TreeIterator K V) : Bool :=
  decide (a.node_ = b.node_)

/-- The comparison `operator!=` (lines 50-52). -/
def TreeIterator.operator_ne [DecidableEq K] [DecidableEq V] (a b : TreeIterator K V) : Bool :=
  decide (a.node_ ≠ b.node_)

/-- The dereference `operator*` (lines 58-60); `none` when `node_` is null. -/
def TreeIterator.operator_star (it : TreeIterator K V) : Option (K × V) :=
  match it.node_ with
  | .null => none
  | .mk k v _ _ => some (k, v)

/-- The inner loop of `operator++` (lines 81-83), started at a non-null node. -/
def leftmostLoop : TreeNode K V → TreeNode K V
  | .null => .null
  | .mk k v l r => if l.isNull then .mk k v l r else leftmostLoop l

/-- The outer loop of `operator++` (lines 68-92), `key` being `node_->key_`: the new value
of `node_`, or `none` when the loop ends without assigning `node_`. -/
def incrLoop [LinearOrder K] (key : K) :
    TreeNode K V → TreeNode K V → Option (TreeNode K V)
  | .null, _ => none
  | .mk k v l r, last_parent_before_turning_left =>
    if key < k then incrLoop key l (.mk k v l r)
    else if key > k then incrLoop key r last_parent_before_turning_left
    else if !r.isNull then some (leftmostLoop r)
    else some last_parent_before_turning_left

/-- The increment `operator++` (lines 62-94); `none` when `node_` is null and the loop
is entered. -/
def TreeIterator.operator_pp [LinearOrder K] (it : TreeIterator K V) :
    Option (TreeIterator K V) :=
  if it.top_.isNull then some it
  else
    match it.node_ with
    | .null => none
    | .mk key _ _ _ =>
      match incrLoop key it.top_ .null with
      | none => some it
      | some n => some ⟨n, it.top_⟩

/-- The loop of `begin` (lines 106-109): the final `last_parent`. -/
def beginLoop : TreeNode K V → TreeNode K V → TreeNode K V
  | .null, last_parent => last_parent
  | .mk k v l r, _ => beginLoop l (.mk k v l r)

/-- The method `begin()` (lines 102-113). -/
def «begin» (top : TreeNode K V) : TreeIterator K V :=
  ⟨beginLoop top .null, top⟩

/-- The method `end()` (lines 115-118). -/
def «end» : TreeIterator K V :=
  ⟨.null, .null⟩

/-! ## find (main.cpp 237-254) -/

/-- The loop of `find` (lines 240-253) and the statement after it.  When the loop ends
on a null `cur_node` the code executes `return nullptr;` (line 253).  The return type is
`TreeIterator`, whose only constructors are the private one from two pointers and the
copy constructor, so this statement converts to no iterator: the result is `none`.
The statement being ill-formed, a program that instantiates `find` is not accepted by
a compiler at all; `some` below is the `return iter;` of line 249 as it is written. -/
def findLoop [LinearOrder K] (key : K) (top : TreeNode K V) :
    TreeNode K V → Option (TreeIterator K V)
  | .null => none
  | .mk k v l r =>
    if key < k then findLoop key top l
    else if key > k then findLoop key top r
    else some ⟨.mk k v l r, top⟩

/-- The method `find(key)`; `none` when no iterator is returned. -/
def find [LinearOrder K] (key : K) (top : TreeNode K V) : Option (TreeIterator K V) :=
  findLoop key top top

/-! ## range (main.cpp 256-306) -/

/-- The class `Subrange`. -/
structure Subrange (K V : Type) where
  start_ : TreeIterator K V
  finish_ : TreeIterator K V

/-- The method `Subrange::begin()`. -/
def Subrange.begin (s : Subrange K V) : TreeIterator K V := s.start_

/-- The method `Subrange::end()`. -/
def Subrange.end (s : Subrange K V) : TreeIterator K V := s.finish_

/-- The `for` loop of `range` (lines 288-298): the final `start` and `finish`; `none` when
the fuel runs out or a null iterator is dereferenced. -/
def rangeLoop [DecidableEq V] (a b : Int) (end_iter : TreeIterator Int V) :
    Nat → TreeIterator Int V → TreeIterator Int V → TreeIterator Int V → Bool →
    Option (TreeIterator Int V × TreeIterator Int V)
  | 0, _, _, _, _ => none
  | fuel + 1, iter, start, finish, start_was_found =>
    if iter.operator_ne end_iter then
      match iter.operator_star with
      | none => none
      | some p =>
        let found := !start_was_found && decide (p.1 ≥ a) && decide (p.1 < b)
        let start1 := if found then iter else start
        let start_was_found1 := if found then true else start_was_found
        if p.1 ≥ b then some (start1, iter)
        else
          match iter.operator_pp with
          | none => none
          | some iter1 => rangeLoop a b end_iter fuel iter1 start1 finish start_was_found1
    else some (start, finish)

/-- The method `range(a, b)` (lines 273-306), its loop run with the given fuel. -/
def range [DecidableEq V] (fuel : Nat) (a b : Int) (top : TreeNode Int V) :
    Option (Subrange Int V) :=
  let begin_iter : TreeIterator Int V := «begin» top
  let end_iter : TreeIterator Int V := «end»
  if a ≥ b then some ⟨end_iter, end_iter⟩
  else
    match rangeLoop a b end_iter fuel begin_iter end_iter end_iter false with
    | none => none
    | some (start, finish) =>
      if start.operator_eq end_iter then some ⟨start, end_iter⟩
      else some ⟨start, finish⟩

/-- The client loop `for (it = first; it != last; ++it) visit(*it)`: the entries visited,
or `none` when the fuel runs out or a null iterator is dereferenced. -/
def iterate [LinearOrder K] [DecidableEq V] :
    Nat → TreeIterator K V → TreeIterator K V → Option (List (K × V))
  | 0, _, _ => none
  | fuel + 1, it, last =>
    if it.operator_ne last then
      match it.operator_star, it.operator_pp with
      | some p, some it1 =>
        match iterate fuel it1 last with
        | some rest => some (p :: rest)
        | none => none
      | _, _ => none
    else some []

/-! ## Observations used in the statements -/

/-- In-order list of the entries: left subtree, node, right subtree. -/
def entries : TreeNode K V → List (K × V)
  | .null => []
  | .mk k v l r => entries l ++ (k, v) :: entries r

/-- In-order list of the keys. -/
def keys : TreeNode K V → List K
  | .null => []
  | .mk k _ l r => keys l ++ k :: keys r

/-- Number of nodes. -/
def size : TreeNode K V → Nat
  | .null => 0
  | .mk _ _ l r => size l + 1 + size r

/-- The BST property: at every node the keys of the left subtree are smaller than the key
of the node and the keys of the right subtree are greater. -/
def IsBST [LinearOrder K] : TreeNode K V → Prop
  | .null => True
  | .mk k _ l r => (∀ j ∈ keys l, j < k) ∧ (∀ j ∈ keys r, k < j) ∧ IsBST l ∧ IsBST r

/-- The shape of a tree: the tree with its keys and values forgotten. -/
def shape : TreeNode K V → TreeNode Unit Unit
  | .null => .null
  | .mk _ _ l r => .mk () () (shape l) (shape r)

/-- The tree built by a sequence of `insert` calls, applied from left to right. -/
def insertAll [LinearOrder K] (ops : List (K × V)) (top : TreeNode K V) : TreeNode K V :=
  ops.foldl (fun t p => insert p.1 p.2 t) top

/-- A call of `insert` or of `erase`. -/
inductive Call (K V : Type) where
  | insert (key : K) (value : V) : Call K V
  | erase (key : K) : Call K V

/-- A sequence of calls applied from left to right; `none` as soon as a call fails. -/
def runCalls [LinearOrder K] : List (Call K V) → TreeNode K V → Option (TreeNode K V)
  | [], top => some top
  | .insert k v :: cs, top => runCalls cs (insert k v top)
  | .erase k :: cs, top =>
    match erase k top with
    | none => none
    | some top1 => runCalls cs top1


/-- The BST property can be checked by evaluation. -/
instance decIsBST [LinearOrder K] : (t : TreeNode K V) → Decidable (IsBST t)
  | .null => isTrue trivial
  | .mk k _ l r =>
    letI := decIsBST l
    letI := decIsBST r
    inferInstanceAs
      (Decidable ((∀ j ∈ keys l, j < k) ∧ (∀ j ∈ keys r, k < j) ∧ IsBST l ∧ IsBST r))

/-- The tree built by inserting the keys 5, 8, 9 in this order: a chain to the right. -/
def chain589 : TreeNode Int Int :=
  .mk 5 50 .null (.mk 8 80 .null (.mk 9 90 .null .null))

/-- The tree built by inserting the keys 5, 3, 8, 2, 4, 7, 9 in this order. -/
def tree7 : TreeNode Int Int :=
  .mk 5 50 (.mk 3 30 (.mk 2 20 .null .null) (.mk 4 40 .null .null))
    (.mk 8 80 (.mk 7 70 .null .null) (.mk 9 90 .null .null))

/-- The tree built by inserting the keys 1, 3, 5, 7, 9 in this order. -/
def chain13579 : TreeNode Int Int :=
  .mk 1 10 .null (.mk 3 30 .null (.mk 5 50 .null (.mk 7 70 .null (.mk 9 90 .null .null))))

/-! ## Definitions used in the proofs -/

/-- The loop of `insert` as a plain recursion; `insert_eq_ins` proves it equal to `insert`. -/
def ins [LinearOrder K] (key : K) (value : V) : TreeNode K V → TreeNode K V
  | .null => .mk key value .null .null
  | .mk k v l r =>
    if key < k then .mk k v (ins key value l) r
    else if key > k then .mk k v l (ins key value r)
    else .mk k value l r

/-- A node of a tree: the four fields of a non-null pointer. -/
structure Node (K V : Type) where
  key_ : K
  value_ : V
  left : TreeNode K V
  right : TreeNode K V

/-- The pointer to a node. -/
def Node.ptr (n : Node K V) : TreeNode K V :=
  .mk n.key_ n.value_ n.left n.right

/-- The entry held by a node. -/
def Node.entry (n : Node K V) : K × V :=
  (n.key_, n.value_)

/-- The nodes of a tree in in-order: left subtree, node, right subtree. -/
def nodes : TreeNode K V → List (Node K V)
  | .null => []
  | .mk k v l r => nodes l ++ ⟨k, v, l, r⟩ :: nodes r

/-- The pointer to the first node of a list, `dflt` when the list is empty. -/
def ptrOr (dflt : TreeNode K V) : List (Node K V) → TreeNode K V
  | [] => dflt
  | n :: _ => n.ptr

/-- The maximum-keyed node of a subtree: descend right as far as possible. -/
def maxNode : TreeNode K V → Option (Node K V)
  | .null => none
  | .mk k v l r => if r.isNull then some ⟨k, v, l, r⟩ else maxNode r

/-- The subtree with its maximum-keyed node removed: the left child of that node is put
in its place. -/
def removeMax : TreeNode K V → TreeNode K V
  | .null => .null
  | .mk k v l r => if r.isNull then l else .mk k v l (removeMax r)

/-- The tree in which the node holding `key` (found by comparing keys from the top) is
replaced by `new`. -/
def replaceAt [LinearOrder K] (key : K) (new : TreeNode K V) : TreeNode K V → TreeNode K V
  | .null => .null
  | .mk k v l r =>
    if key < k then .mk k v (replaceAt key new l) r
    else if k < key then .mk k v l (replaceAt key new r)
    else new

/-- Whether the descent from `t` by key comparisons reaches a node holding `key`. -/
def descentFinds [LinearOrder K] (key : K) : TreeNode K V → Bool
  | .null => false
  | .mk k _ l r =>
    if key < k then descentFinds key l
    else if key > k then descentFinds key r
    else true

/-- The iterator after `m` applications of `operator++`; `none` as soon as one fails. -/
def advance [LinearOrder K] : Nat → TreeIterator K V → Option (TreeIterator K V)
  | 0, it => some it
  | m + 1, it =>
    match it.operator_pp with
    | none => none
    | some it1 => advance m it1

/-! ## Auxiliary facts -/

theorem isNull_iff (t : TreeNode K V) : t.isNull = true ↔ t = .null := by
  cases t <;> simp [TreeNode.isNull]

theorem keys_eq_map_entries (t : TreeNode K V) : keys t = (entries t).map Prod.fst := by
  induction t with
  | null => rfl
  | mk k v l r ihl ihr => simp [keys, entries, ihl, ihr]

theorem key_mem_of_entry {t : TreeNode K V} {j : K} {w : V} (h : (j, w) ∈ entries t) :
    j ∈ keys t := by
  rw [keys_eq_map_entries]
  exact List.mem_map_of_mem Prod.fst h

/-! ### Nodes in in-order -/

theorem keys_eq_map_nodes (t : TreeNode K V) : keys t = (nodes t).map Node.key_ := by
  induction t with
  | null => rfl
  | mk k v l r ihl ihr => simp [keys, nodes, ihl, ihr]

theorem entries_eq_map_nodes (t : TreeNode K V) : entries t = (nodes t).map Node.entry := by
  induction t with
  | null => rfl
  | mk k v l r ihl ihr => simp [entries, nodes, ihl, ihr, Node.entry]

theorem length_nodes (t : TreeNode K V) : (nodes t).length = size t := by
  induction t with
  | null => rfl
  | mk k v l r ihl ihr => simp [size, nodes, ihl, ihr]; omega

theorem nodes_eq_nil_iff (t : TreeNode K V) : nodes t = [] ↔ t = .null := by
  cases t <;> simp [nodes]

theorem ptrOr_append (d : TreeNode K V) (xs ys : List (Node K V)) :
    ptrOr d (xs ++ ys) = ptrOr (ptrOr d ys) xs := by
  cases xs <;> rfl

theorem ptrOr_of_ne_nil (d e : TreeNode K V) {xs : List (Node K V)} (h : xs ≠ []) :
    ptrOr d xs = ptrOr e xs := by
  cases xs with
  | nil => exact absurd rfl h
  | cons x xs => rfl

theorem beginLoop_eq (t d : TreeNode K V) : beginLoop t d = ptrOr d (nodes t) := by
  induction t generalizing d with
  | null => rfl
  | mk k v l r ihl _ =>
    simp only [beginLoop, nodes, ptrOr_append, ihl]
    rfl

theorem leftmostLoop_eq (t : TreeNode K V) : leftmostLoop t = ptrOr .null (nodes t) := by
  induction t with
  | null => rfl
  | mk k v l r ihl _ =>
    simp only [leftmostLoop, nodes, ptrOr_append]
    cases l with
    | null => rfl
    | mk lk lv ll lr =>
      simp only [TreeNode.isNull, ihl]
      exact ptrOr_of_ne_nil _ _ (by simp [nodes])

theorem node_key_mem {t : TreeNode K V} {n : Node K V} (h : n ∈ nodes t) : n.key_ ∈ keys t := by
  rw [keys_eq_map_nodes]
  exact List.mem_map_of_mem _ h

/-! ### The maximum of a subtree -/

theorem maxNode_isSome (t : TreeNode K V) (h : t ≠ .null) : ∃ p, maxNode t = some p := by
  induction t with
  | null => exact absurd rfl h
  | mk k v l r _ ihr =>
    cases r with
    | null => exact ⟨_, rfl⟩
    | mk rk rv rl rr => simpa [maxNode, TreeNode.isNull] using ihr (by simp)

theorem maxNode_right (t : TreeNode K V) (p : Node K V) (h : maxNode t = some p) :
    p.right = .null := by
  induction t with
  | null => simp [maxNode] at h
  | mk k v l r _ ihr =>
    cases r with
    | null =>
      simp only [maxNode, TreeNode.isNull, if_true, Option.some.injEq] at h
      rw [← h]
    | mk rk rv rl rr =>
      simp only [maxNode, TreeNode.isNull] at h
      exact ihr h

theorem entries_removeMax (t : TreeNode K V) (p : Node K V) (h : maxNode t = some p) :
    entries t = entries (removeMax t) ++ [p.entry] := by
  induction t with
  | null => simp [maxNode] at h
  | mk k v l r _ ihr =>
    cases r with
    | null =>
      simp only [maxNode, TreeNode.isNull, if_true, Option.some.injEq] at h
      simp [removeMax, TreeNode.isNull, entries, ← h, Node.entry]
    | mk rk rv rl rr =>
      simp only [maxNode, TreeNode.isNull] at h
      simp only [removeMax, TreeNode.isNull, entries] at ihr ⊢
      rw [ihr h]
      simp

theorem keys_removeMax (t : TreeNode K V) (p : Node K V) (h : maxNode t = some p) :
    keys t = keys (removeMax t) ++ [p.key_] := by
  rw [keys_eq_map_entries, keys_eq_map_entries, entries_removeMax t p h]
  simp [Node.entry]

theorem maxLeftLoop_eq (t : TreeNode K V) (p : Node K V) (h : maxNode t = some p)
    (path0 : List (Step K V)) :
    ∃ path, maxLeftLoop t path0 = (p.ptr, path) ∧
      relink path p.left = relink path0 (removeMax t) ∧
      (path = path0 ∨ ∃ s rest, path = s :: rest ∧ s.turn_left = false) := by
  induction t generalizing path0 with
  | null => simp [maxNode] at h
  | mk k v l r _ ihr =>
    cases r with
    | null =>
      simp only [maxNode, TreeNode.isNull, if_true, Option.some.injEq] at h
      subst h
      exact ⟨path0, rfl, rfl, Or.inl rfl⟩
    | mk rk rv rl rr =>
      simp only [maxNode, TreeNode.isNull] at h
      obtain ⟨path, h1, h2, h3⟩ := ihr h (⟨k, v, l, .mk rk rv rl rr, false⟩ :: path0)
      refine ⟨path, ?_, ?_, ?_⟩
      · simpa [maxLeftLoop, TreeNode.isNull] using h1
      · rw [h2]
        simp [relink, removeMax, TreeNode.isNull]
      · rcases h3 with h3 | h3
        · exact Or.inr ⟨_, _, h3, rfl⟩
        · exact Or.inr h3

theorem eraseBoth_eq (cl cr : TreeNode K V) (p : Node K V) (h : maxNode cl = some p) :
    eraseBoth cl cr = some (.mk p.key_ p.value_ (removeMax cl) cr) := by
  obtain ⟨path, h1, h2, h3⟩ := maxLeftLoop_eq cl p h []
  simp only [relink] at h2
  unfold eraseBoth
  rw [h1]
  rcases h3 with rfl | ⟨s, rest, rfl, hs⟩
  · simp only [relink] at h2
    simp [Node.ptr, h2]
  · simp only [relink, hs, Bool.false_eq_true, if_false] at h2
    simp [Node.ptr, h2]

/-! ### Subtrees of a node -/

theorem self_mem_nodes (n : Node K V) : n ∈ nodes n.ptr := by
  simp [Node.ptr, nodes]

theorem nodes_subtree (t : TreeNode K V) (p : Node K V) (hp : p ∈ nodes t) :
    (∀ m ∈ nodes p.left, m ∈ nodes t) ∧ (∀ m ∈ nodes p.right, m ∈ nodes t) := by
  induction t with
  | null => simp [nodes] at hp
  | mk k v l r ihl ihr =>
    simp only [nodes, List.mem_append, List.mem_cons] at hp ⊢
    rcases hp with hp | rfl | hp
    · exact ⟨fun m hm => Or.inl ((ihl hp).1 m hm), fun m hm => Or.inl ((ihl hp).2 m hm)⟩
    · exact ⟨fun m hm => Or.inl hm, fun m hm => Or.inr (Or.inr hm)⟩
    · exact ⟨fun m hm => Or.inr (Or.inr ((ihr hp).1 m hm)),
        fun m hm => Or.inr (Or.inr ((ihr hp).2 m hm))⟩

theorem relink_leaf (s : Step K V) (rest : List (Step K V)) :
    (if s.turn_left = true then some (relink rest (.mk s.key_ s.value_ .null s.right))
      else some (relink rest (.mk s.key_ s.value_ s.left .null)))
      = some (relink (s :: rest) .null) := by
  cases hs : s.turn_left <;> simp [relink, hs]

variable [LinearOrder K]

theorem insertLoop_eq_ins (key : K) (value : V) (t : TreeNode K V) (h : t ≠ .null) :
    insertLoop key value t = ins key value t := by
  induction t with
  | null => exact absurd rfl h
  | mk k v l r ihl ihr =>
    simp only [insertLoop, ins]
    split
    · cases l with
      | null => simp [TreeNode.isNull, ins]
      | mk lk lv ll lr => simp [TreeNode.isNull, ihl]
    · split
      · cases r with
        | null => simp [TreeNode.isNull, ins]
        | mk rk rv rl rr => simp [TreeNode.isNull, ihr]
      · rfl

theorem insert_eq_ins (key : K) (value : V) (t : TreeNode K V) :
    insert key value t = ins key value t := by
  cases t with
  | null => simp [insert, TreeNode.isNull, ins]
  | mk k v l r =>
    simp only [insert, TreeNode.isNull]
    exact insertLoop_eq_ins key value _ (by simp)

theorem mem_keys_ins (key : K) (value : V) (t : TreeNode K V) (j : K) :
    j ∈ keys (ins key value t) ↔ j = key ∨ j ∈ keys t := by
  induction t with
  | null => simp [ins, keys]
  | mk k v l r ihl ihr =>
    simp only [ins]
    split
    · simp only [keys, List.mem_append, List.mem_cons, ihl]; tauto
    · split
      · simp only [keys, List.mem_append, List.mem_cons, ihr]; tauto
      · have : key = k := le_antisymm (not_lt.mp (by assumption)) (not_lt.mp (by assumption))
        subst this
        simp only [keys, List.mem_append, List.mem_cons]; tauto

theorem isBST_ins (key : K) (value : V) (t : TreeNode K V) (h : IsBST t) :
    IsBST (ins key value t) := by
  induction t with
  | null => simp [ins, IsBST, keys]
  | mk k v l r ihl ihr =>
    obtain ⟨hl, hr, bl, br⟩ := h
    simp only [ins]
    split
    · refine ⟨?_, hr, ihl bl, br⟩
      intro j hj
      rcases (mem_keys_ins key value l j).mp hj with rfl | hj
      · assumption
      · exact hl j hj
    · split
      · refine ⟨hl, ?_, bl, ihr br⟩
        intro j hj
        rcases (mem_keys_ins key value r j).mp hj with rfl | hj
        · assumption
        · exact hr j hj
      · exact ⟨hl, hr, bl, br⟩

theorem mem_entries_ins (key : K) (value : V) (t : TreeNode K V) (h : IsBST t) (j : K) (w : V) :
    (j, w) ∈ entries (ins key value t) ↔
      (j = key ∧ w = value) ∨ (j ≠ key ∧ (j, w) ∈ entries t) := by
  induction t with
  | null => simp [ins, entries]
  | mk k v l r ihl ihr =>
    obtain ⟨hl, hr, bl, br⟩ := h
    simp only [ins]
    split
    · rename_i hlt
      simp only [entries, List.mem_append, List.mem_cons, ihl bl, Prod.mk.injEq]
      constructor
      · rintro ((h | h) | ⟨rfl, rfl⟩ | h)
        · exact Or.inl h
        · exact Or.inr ⟨h.1, Or.inl h.2⟩
        · exact Or.inr ⟨ne_of_gt hlt, Or.inr (Or.inl ⟨rfl, rfl⟩)⟩
        · exact Or.inr ⟨ne_of_gt (lt_trans hlt (hr j (key_mem_of_entry h))), Or.inr (Or.inr h)⟩
      · rintro (h | ⟨hne, h | h | h⟩)
        · exact Or.inl (Or.inl h)
        · exact Or.inl (Or.inr ⟨hne, h⟩)
        · exact Or.inr (Or.inl h)
        · exact Or.inr (Or.inr h)
    · split
      · rename_i hnlt hgt
        simp only [entries, List.mem_append, List.mem_cons, ihr br, Prod.mk.injEq]
        constructor
        · rintro (h | ⟨rfl, rfl⟩ | h | h)
          · exact Or.inr ⟨ne_of_lt (lt_trans (hl j (key_mem_of_entry h)) hgt), Or.inl h⟩
          · exact Or.inr ⟨ne_of_lt hgt, Or.inr (Or.inl ⟨rfl, rfl⟩)⟩
          · exact Or.inl h
          · exact Or.inr ⟨h.1, Or.inr (Or.inr h.2)⟩
        · rintro (h | ⟨hne, h | h | h⟩)
          · exact Or.inr (Or.inr (Or.inl h))
          · exact Or.inl h
          · exact Or.inr (Or.inl h)
          · exact Or.inr (Or.inr (Or.inr ⟨hne, h⟩))
      · rename_i hnlt hngt
        have hk : key = k := le_antisymm (not_lt.mp hngt) (not_lt.mp hnlt)
        subst hk
        simp only [entries, List.mem_append, List.mem_cons, Prod.mk.injEq]
        constructor
        · rintro (h | ⟨rfl, rfl⟩ | h)
          · exact Or.inr ⟨ne_of_lt (hl j (key_mem_of_entry h)), Or.inl h⟩
          · exact Or.inl ⟨rfl, rfl⟩
          · exact Or.inr ⟨ne_of_gt (hr j (key_mem_of_entry h)), Or.inr (Or.inr h)⟩
        · rintro (h | ⟨hne, h | h | h⟩)
          · exact Or.inr (Or.inl h)
          · exact Or.inl h
          · exact absurd h.1 hne
          · exact Or.inr (Or.inr h)

theorem entries_filter_key_eq_nil (k : K) (xs : List (K × V)) (h : ∀ p ∈ xs, p.1 ≠ k) :
    xs.filter (fun p => decide (p.1 = k)) = [] := by
  rw [List.filter_eq_nil_iff]
  intro p hp
  simpa using h p hp

theorem entries_map_update_eq (k : K) (v : V) (xs : List (K × V)) (h : ∀ p ∈ xs, p.1 ≠ k) :
    xs.map (fun p => if p.1 = k then (k, v) else p) = xs := by
  induction xs with
  | nil => rfl
  | cons x xs ih =>
    have hx : x.1 ≠ k := h x (List.mem_cons_self _ _)
    simp only [List.map_cons, if_neg hx]
    rw [ih (fun p hp => h p (List.mem_cons_of_mem _ hp))]

theorem entry_key_ne_of_lt {t : TreeNode K V} {k b : K} (h : ∀ j ∈ keys t, j < b) (hk : b ≤ k) :
    ∀ p ∈ entries t, p.1 ≠ k := by
  intro p hp
  have := h p.1 (key_mem_of_entry hp)
  exact ne_of_lt (lt_of_lt_of_le this hk)

theorem entry_key_ne_of_gt {t : TreeNode K V} {k b : K} (h : ∀ j ∈ keys t, b < j) (hk : k ≤ b) :
    ∀ p ∈ entries t, p.1 ≠ k := by
  intro p hp
  have := h p.1 (key_mem_of_entry hp)
  exact ne_of_gt (lt_of_le_of_lt hk this)

theorem filter_entries_ins (key : K) (value : V) (t : TreeNode K V) (h : IsBST t) :
    (entries (ins key value t)).filter (fun p => decide (p.1 = key)) = [(key, value)] := by
  induction t with
  | null => simp [ins, entries]
  | mk k v l r ihl ihr =>
    obtain ⟨hl, hr, bl, br⟩ := h
    simp only [ins]
    split
    · rename_i hlt
      simp only [entries, List.filter_append, ihl bl]
      rw [List.filter_cons_of_neg (by simpa using ne_of_gt hlt),
        entries_filter_key_eq_nil key _ (entry_key_ne_of_gt hr (le_of_lt hlt))]
      rfl
    · split
      · rename_i hnlt hgt
        simp only [entries, List.filter_append]
        rw [List.filter_cons_of_neg (by simpa using ne_of_lt hgt),
          entries_filter_key_eq_nil key _ (entry_key_ne_of_lt hl (le_of_lt hgt)), ihr br]
        rfl
      · rename_i hnlt hngt
        have hk : key = k := le_antisymm (not_lt.mp hngt) (not_lt.mp hnlt)
        subst hk
        simp only [entries, List.filter_append]
        rw [List.filter_cons_of_pos (by simp),
          entries_filter_key_eq_nil key _ (entry_key_ne_of_lt hl le_rfl),
          entries_filter_key_eq_nil key _ (entry_key_ne_of_gt hr le_rfl)]
        rfl

theorem ins_overwrite (key : K) (value : V) (t : TreeNode K V) (h : IsBST t)
    (hmem : key ∈ keys t) :
    size (ins key value t) = size t ∧ shape (ins key value t) = shape t ∧
    keys (ins key value t) = keys t ∧
    entries (ins key value t) =
      (entries t).map (fun p => if p.1 = key then (key, value) else p) := by
  induction t with
  | null => simp [keys] at hmem
  | mk k v l r ihl ihr =>
    obtain ⟨hl, hr, bl, br⟩ := h
    simp only [keys, List.mem_append, List.mem_cons] at hmem
    simp only [ins]
    split
    · rename_i hlt
      have hml : key ∈ keys l := by
        rcases hmem with h | h | h
        · exact h
        · exact absurd h (ne_of_lt hlt)
        · exact absurd (hr key h) (not_lt.mpr (le_of_lt hlt))
      obtain ⟨h1, h2, h3, h4⟩ := ihl bl hml
      refine ⟨by simp [size, h1], by simp [shape, h2], by simp [keys, h3], ?_⟩
      simp only [entries, List.map_append, List.map_cons, h4, if_neg (ne_of_gt hlt)]
      rw [entries_map_update_eq key value _ (entry_key_ne_of_gt hr (le_of_lt hlt))]
    · split
      · rename_i hnlt hgt
        have hmr : key ∈ keys r := by
          rcases hmem with h | h | h
          · exact absurd (hl key h) (not_lt.mpr (le_of_lt hgt))
          · exact absurd h (ne_of_gt hgt)
          · exact h
        obtain ⟨h1, h2, h3, h4⟩ := ihr br hmr
        refine ⟨by simp [size, h1], by simp [shape, h2], by simp [keys, h3], ?_⟩
        simp only [entries, List.map_append, List.map_cons, h4, if_neg (ne_of_lt hgt)]
        rw [entries_map_update_eq key value _ (entry_key_ne_of_lt hl (le_of_lt hgt))]
      · rename_i hnlt hngt
        have hk : key = k := le_antisymm (not_lt.mp hngt) (not_lt.mp hnlt)
        subst hk
        refine ⟨by simp [size], by simp [shape], by simp [keys], ?_⟩
        simp only [entries, List.map_append, List.map_cons, if_true]
        rw [entries_map_update_eq key value _ (entry_key_ne_of_lt hl le_rfl),
          entries_map_update_eq key value _ (entry_key_ne_of_gt hr le_rfl)]

theorem insertAll_append (xs ys : List (K × V)) (t : TreeNode K V) :
    insertAll (xs ++ ys) t = insertAll ys (insertAll xs t) := by
  simp [insertAll, List.foldl_append]

theorem isBST_insertAll (xs : List (K × V)) (t : TreeNode K V) (h : IsBST t) :
    IsBST (insertAll xs t) := by
  induction xs generalizing t with
  | nil => exact h
  | cons x xs ih =>
    have : insertAll (x :: xs) t = insertAll xs (insert x.1 x.2 t) := rfl
    rw [this]
    exact ih _ (by rw [insert_eq_ins]; exact isBST_ins _ _ _ h)

theorem entry_insertAll_of_ne (xs : List (K × V)) (t : TreeNode K V) (h : IsBST t)
    (k : K) (v : V) (hmem : (k, v) ∈ entries t) (hne : ∀ p ∈ xs, p.1 ≠ k) :
    (k, v) ∈ entries (insertAll xs t) := by
  induction xs generalizing t with
  | nil => exact hmem
  | cons x xs ih =>
    have hx : insertAll (x :: xs) t = insertAll xs (insert x.1 x.2 t) := rfl
    rw [hx]
    refine ih _ (by rw [insert_eq_ins]; exact isBST_ins _ _ _ h) ?_
      (fun p hp => hne p (List.mem_cons_of_mem _ hp))
    rw [insert_eq_ins, mem_entries_ins _ _ _ h]
    exact Or.inr ⟨fun e => hne x (List.mem_cons_self _ _) e.symm, hmem⟩

theorem entry_after_inserts (xs ys : List (K × V)) (k : K) (v : V)
    (hlast : ∀ p ∈ ys, p.1 ≠ k) :
    IsBST (insertAll (xs ++ (k, v) :: ys) (.null : TreeNode K V)) ∧
    (k, v) ∈ entries (insertAll (xs ++ (k, v) :: ys) (.null : TreeNode K V)) := by
  have hb : IsBST (insertAll xs (.null : TreeNode K V)) := isBST_insertAll xs _ trivial
  have hstep : insertAll (xs ++ (k, v) :: ys) (.null : TreeNode K V)
      = insertAll ys (ins k v (insertAll xs .null)) := by
    rw [insertAll_append, ← insert_eq_ins]; rfl
  have hb2 : IsBST (ins k v (insertAll xs (.null : TreeNode K V))) := isBST_ins _ _ _ hb
  refine ⟨isBST_insertAll _ .null trivial, ?_⟩
  rw [hstep]
  refine entry_insertAll_of_ne ys _ hb2 k v ?_ hlast
  rw [mem_entries_ins _ _ _ hb]
  exact Or.inl ⟨rfl, rfl⟩

/-! ### The iterator on a tree with the BST property -/

theorem keys_pairwise (t : TreeNode K V) (h : IsBST t) : (keys t).Pairwise (· < ·) := by
  induction t with
  | null => simp [keys]
  | mk k v l r ihl ihr =>
    obtain ⟨hl, hr, bl, br⟩ := h
    simp only [keys, List.pairwise_append, List.pairwise_cons, List.mem_cons]
    refine ⟨ihl bl, ⟨hr, ihr br⟩, ?_⟩
    rintro a ha b (rfl | hb)
    · exact hl a ha
    · exact lt_trans (hl a ha) (hr b hb)

theorem nodes_pairwise (t : TreeNode K V) (h : IsBST t) :
    (nodes t).Pairwise (fun a b => a.key_ < b.key_) := by
  have := keys_pairwise t h
  rw [keys_eq_map_nodes, List.pairwise_map] at this
  exact this

theorem filter_gt_nil (key : K) (xs : List (Node K V)) (h : ∀ n ∈ xs, n.key_ ≤ key) :
    xs.filter (fun n => decide (key < n.key_)) = [] := by
  rw [List.filter_eq_nil_iff]
  intro n hn
  simpa using h n hn

theorem filter_gt_self (key : K) (xs : List (Node K V)) (h : ∀ n ∈ xs, key < n.key_) :
    xs.filter (fun n => decide (key < n.key_)) = xs := by
  rw [List.filter_eq_self]
  intro n hn
  simpa using h n hn

theorem incrLoop_eq (key : K) (t d : TreeNode K V) (h : IsBST t) (hmem : key ∈ keys t) :
    incrLoop key t d = some (ptrOr d ((nodes t).filter (fun n => decide (key < n.key_)))) := by
  induction t generalizing d with
  | null => simp [keys] at hmem
  | mk k v l r ihl ihr =>
    obtain ⟨hl, hr, bl, br⟩ := h
    simp only [keys, List.mem_append, List.mem_cons] at hmem
    simp only [incrLoop, nodes, List.filter_append]
    split
    · rename_i hlt
      have hml : key ∈ keys l := by
        rcases hmem with h | h | h
        · exact h
        · exact absurd h (ne_of_lt hlt)
        · exact absurd (hr key h) (not_lt.mpr (le_of_lt hlt))
      rw [ihl _ bl hml, List.filter_cons_of_pos (by simpa using hlt), ptrOr_append]
      rfl
    · split
      · rename_i hnlt hgt
        have hmr : key ∈ keys r := by
          rcases hmem with h | h | h
          · exact absurd (hl key h) (not_lt.mpr (le_of_lt hgt))
          · exact absurd h (ne_of_gt hgt)
          · exact h
        rw [ihr _ br hmr, List.filter_cons_of_neg (by simpa using le_of_lt hgt),
          filter_gt_nil key (nodes l)
            (fun n hn => le_of_lt (lt_trans (hl _ (node_key_mem hn)) hgt))]
        rfl
      · rename_i hnlt hngt
        have hk : key = k := le_antisymm (not_lt.mp hngt) (not_lt.mp hnlt)
        subst hk
        rw [List.filter_cons_of_neg (by simp),
          filter_gt_nil key (nodes l) (fun n hn => le_of_lt (hl _ (node_key_mem hn))),
          filter_gt_self key (nodes r) (fun n hn => hr _ (node_key_mem hn))]
        cases r with
        | null => rfl
        | mk rk rv rl rr =>
          simp only [TreeNode.isNull, Bool.not_false, if_true, leftmostLoop_eq, List.nil_append]
          rw [ptrOr_of_ne_nil .null d (by simp [nodes])]

theorem operator_pp_of_split (t : TreeNode K V) (h : IsBST t) (xs ys : List (Node K V))
    (n : Node K V) (hs : nodes t = xs ++ n :: ys) :
    TreeIterator.operator_pp ⟨n.ptr, t⟩ = some ⟨ptrOr .null ys, t⟩ := by
  have hp := nodes_pairwise t h
  rw [hs, List.pairwise_append, List.pairwise_cons] at hp
  obtain ⟨_, ⟨hny, _⟩, hxn⟩ := hp
  have hmem : n.key_ ∈ keys t := node_key_mem (by rw [hs]; simp)
  have hf : (nodes t).filter (fun m => decide (n.key_ < m.key_)) = ys := by
    rw [hs, List.filter_append, List.filter_cons_of_neg (by simp),
      filter_gt_nil _ xs (fun m hm => le_of_lt (hxn m hm n (List.mem_cons_self _ _))),
      filter_gt_self _ ys hny]
    rfl
  cases t with
  | null => simp [nodes] at hs
  | mk k v l r =>
    simp only [TreeIterator.operator_pp, TreeNode.isNull, Node.ptr]
    rw [incrLoop_eq _ _ _ h hmem, hf]
    simp

theorem iterate_succ_of_eq [DecidableEq V] (f : Nat) (it last : TreeIterator K V)
    (h : it.node_ = last.node_) : iterate (f + 1) it last = some [] := by
  simp [iterate, TreeIterator.operator_ne, h]

theorem iterate_succ_of_ne [DecidableEq V] (f : Nat) (it last it1 : TreeIterator K V)
    (p : K × V) (h : it.node_ ≠ last.node_) (hstar : it.operator_star = some p)
    (hpp : it.operator_pp = some it1) :
    iterate (f + 1) it last = (iterate f it1 last).map (fun rest => p :: rest) := by
  simp only [iterate, TreeIterator.operator_ne, ne_eq, h, not_false_eq_true, decide_True,
    if_true, hstar, hpp]
  cases iterate f it1 last <;> rfl

theorem iterate_segment [DecidableEq V] (t top1 : TreeNode K V) (h : IsBST t)
    (ms xs zs : List (Node K V)) (hs : nodes t = xs ++ ms ++ zs) (fuel : Nat)
    (hfuel : ms.length < fuel) :
    iterate fuel ⟨ptrOr .null (ms ++ zs), t⟩ ⟨ptrOr .null zs, top1⟩ = some (ms.map Node.entry) := by
  induction ms generalizing xs fuel with
  | nil =>
    cases fuel with
    | zero => simp at hfuel
    | succ f => exact iterate_succ_of_eq f _ _ rfl
  | cons m ms ih =>
    cases fuel with
    | zero => simp at hfuel
    | succ f =>
      have hp := nodes_pairwise t h
      have hne : m.ptr ≠ ptrOr .null zs := by
        cases zs with
        | nil => simp [ptrOr, Node.ptr]
        | cons z zs =>
          rw [hs] at hp
          have hlt : m.key_ < z.key_ := by
            rw [List.pairwise_append] at hp
            exact hp.2.2 m (by simp) z (by simp)
          intro e
          simp only [ptrOr, Node.ptr, TreeNode.mk.injEq] at e
          exact absurd e.1 (ne_of_lt hlt)
      have hpp := operator_pp_of_split t h xs (ms ++ zs) m (by rw [hs]; simp)
      have hrec := ih (xs ++ [m]) (by rw [hs]; simp) f (by simpa using hfuel)
      have hstep := iterate_succ_of_ne f ⟨m.ptr, t⟩ ⟨ptrOr .null zs, top1⟩ _ m.entry hne rfl hpp
      rw [hrec] at hstep
      exact hstep

/-! ### Locating a node in a tree with the BST property -/

theorem isBST_of_keys_pairwise (t : TreeNode K V) (h : (keys t).Pairwise (· < ·)) :
    IsBST t := by
  induction t with
  | null => trivial
  | mk k v l r ihl ihr =>
    simp only [keys, List.pairwise_append, List.pairwise_cons, List.mem_cons] at h
    obtain ⟨hl, ⟨hr, hrr⟩, hlr⟩ := h
    exact ⟨fun j hj => hlr j hj k (Or.inl rfl), hr, ihl hl, ihr hrr⟩

theorem node_mem_cases {k : K} {v : V} {l r : TreeNode K V} (h : IsBST (.mk k v l r))
    {n : Node K V} (hn : n ∈ nodes (.mk k v l r)) :
    (n.key_ < k ∧ n ∈ nodes l) ∨ n = ⟨k, v, l, r⟩ ∨ (k < n.key_ ∧ n ∈ nodes r) := by
  obtain ⟨hl, hr, _, _⟩ := h
  simp only [nodes, List.mem_append, List.mem_cons] at hn
  rcases hn with hn | hn | hn
  · exact Or.inl ⟨hl _ (node_key_mem hn), hn⟩
  · exact Or.inr (Or.inl hn)
  · exact Or.inr (Or.inr ⟨hr _ (node_key_mem hn), hn⟩)

theorem eraseSearch_of_mem (t : TreeNode K V) (h : IsBST t) (n : Node K V) (hn : n ∈ nodes t)
    (path0 : List (Step K V)) :
    ∃ path, eraseSearch n.key_ t path0 = (n.ptr, path) ∧
      ∀ new, relink path new = relink path0 (replaceAt n.key_ new t) := by
  induction t generalizing path0 with
  | null => simp [nodes] at hn
  | mk k v l r ihl ihr =>
    rcases node_mem_cases h hn with ⟨hlt, hm⟩ | rfl | ⟨hgt, hm⟩
    · obtain ⟨path, h1, h2⟩ := ihl h.2.2.1 hm (⟨k, v, l, r, true⟩ :: path0)
      refine ⟨path, by simpa [eraseSearch, hlt] using h1, fun new => ?_⟩
      rw [h2]
      simp [relink, replaceAt, hlt]
    · exact ⟨path0, by simp [eraseSearch, Node.ptr], fun new => by simp [replaceAt]⟩
    · obtain ⟨path, h1, h2⟩ := ihr h.2.2.2 hm (⟨k, v, l, r, false⟩ :: path0)
      refine ⟨path, by simpa [eraseSearch, hgt, not_lt.mpr (le_of_lt hgt)] using h1,
        fun new => ?_⟩
      rw [h2]
      simp [relink, replaceAt, hgt, not_lt.mpr (le_of_lt hgt)]

theorem entries_replaceAt (t : TreeNode K V) (h : IsBST t) (n : Node K V) (hn : n ∈ nodes t) :
    ∃ xs ys, entries t = xs ++ entries n.ptr ++ ys ∧
      ∀ new, entries (replaceAt n.key_ new t) = xs ++ entries new ++ ys := by
  induction t with
  | null => simp [nodes] at hn
  | mk k v l r ihl ihr =>
    rcases node_mem_cases h hn with ⟨hlt, hm⟩ | rfl | ⟨hgt, hm⟩
    · obtain ⟨xs, ys, h1, h2⟩ := ihl h.2.2.1 hm
      refine ⟨xs, ys ++ (k, v) :: entries r, by simp [entries, h1], fun new => ?_⟩
      simp [replaceAt, hlt, entries, h2]
    · exact ⟨[], [], by simp [Node.ptr], fun new => by simp [replaceAt]⟩
    · obtain ⟨xs, ys, h1, h2⟩ := ihr h.2.2.2 hm
      refine ⟨entries l ++ (k, v) :: xs, ys, by simp [entries, h1], fun new => ?_⟩
      simp [replaceAt, hgt, not_lt.mpr (le_of_lt hgt), entries, h2]

theorem filter_key_ne_of_nodup (xs ys : List (K × V)) (k : K) (v : V)
    (h : ((xs ++ (k, v) :: ys).map Prod.fst).Pairwise (· < ·)) :
    (xs ++ (k, v) :: ys).filter (fun e => decide (e.1 ≠ k)) = xs ++ ys := by
  rw [List.map_append, List.map_cons, List.pairwise_append, List.pairwise_cons] at h
  obtain ⟨_, ⟨hy, _⟩, hx⟩ := h
  rw [List.filter_append, List.filter_cons_of_neg (by simp)]
  congr 1
  · rw [List.filter_eq_self]
    intro e he
    have := hx e.1 (List.mem_map_of_mem _ he) k (List.mem_cons_self _ _)
    simpa using ne_of_lt this
  · rw [List.filter_eq_self]
    intro e he
    have := hy e.1 (List.mem_map_of_mem _ he)
    simpa using ne_of_gt this

theorem node_isBST (t : TreeNode K V) (h : IsBST t) (n : Node K V) (hn : n ∈ nodes t) :
    IsBST n.left ∧ IsBST n.right := by
  induction t with
  | null => simp [nodes] at hn
  | mk k v l r ihl ihr =>
    rcases node_mem_cases h hn with ⟨_, hm⟩ | rfl | ⟨_, hm⟩
    · exact ihl h.2.2.1 hm
    · exact ⟨h.2.2.1, h.2.2.2⟩
    · exact ihr h.2.2.2 hm

/-! ### The loop of `range` -/

theorem rangeLoop_at_end [DecidableEq V] (a b : Int) (e iter start finish : TreeIterator Int V)
    (swf : Bool) (f : Nat) (h : iter.node_ = e.node_) :
    rangeLoop a b e (f + 1) iter start finish swf = some (start, finish) := by
  simp [rangeLoop, TreeIterator.operator_ne, h]

theorem rangeLoop_break [DecidableEq V] (a b : Int) (e iter start finish : TreeIterator Int V)
    (swf : Bool) (f : Nat) (p : Int × V) (h : iter.node_ ≠ e.node_)
    (hstar : iter.operator_star = some p) (hb : b ≤ p.1) :
    rangeLoop a b e (f + 1) iter start finish swf = some (start, iter) := by
  have hnb : ¬ p.1 < b := not_lt.mpr hb
  simp [rangeLoop, TreeIterator.operator_ne, h, hstar, hb, hnb]

theorem rangeLoop_skip [DecidableEq V] (a b : Int) (e iter iter1 start finish : TreeIterator Int V)
    (swf : Bool) (f : Nat) (p : Int × V) (h : iter.node_ ≠ e.node_)
    (hstar : iter.operator_star = some p) (hpp : iter.operator_pp = some iter1)
    (hb : p.1 < b) (hskip : swf = true ∨ p.1 < a) :
    rangeLoop a b e (f + 1) iter start finish swf
      = rangeLoop a b e f iter1 start finish swf := by
  have hnb : ¬ b ≤ p.1 := not_le.mpr hb
  rcases hskip with rfl | ha
  · simp [rangeLoop, TreeIterator.operator_ne, h, hstar, hpp, hnb]
  · have hna : ¬ a ≤ p.1 := not_le.mpr ha
    simp [rangeLoop, TreeIterator.operator_ne, h, hstar, hpp, hnb, hna]

theorem rangeLoop_start [DecidableEq V] (a b : Int) (e iter iter1 start finish : TreeIterator Int V)
    (f : Nat) (p : Int × V) (h : iter.node_ ≠ e.node_)
    (hstar : iter.operator_star = some p) (hpp : iter.operator_pp = some iter1)
    (ha : a ≤ p.1) (hb : p.1 < b) :
    rangeLoop a b e (f + 1) iter start finish false
      = rangeLoop a b e f iter1 iter finish true := by
  have hnb : ¬ b ≤ p.1 := not_le.mpr hb
  simp [rangeLoop, TreeIterator.operator_ne, h, hstar, hpp, hnb, ha, hb]

theorem rangeLoop_found [DecidableEq V] (a b : Int) (t : TreeNode Int V) (h : IsBST t)
    (start : TreeIterator Int V) (rs ps : List (Node Int V)) (hs : nodes t = ps ++ rs)
    (fuel : Nat) (hfuel : rs.length < fuel) :
    ∃ ms cs fin, rs = ms ++ cs ∧ (∀ n ∈ ms, n.key_ < b) ∧ (∀ n ∈ cs, b ≤ n.key_) ∧
      rangeLoop a b «end» fuel ⟨ptrOr .null rs, t⟩ start «end» true = some (start, fin) ∧
      fin.node_ = ptrOr .null cs := by
  induction rs generalizing ps fuel with
  | nil =>
    cases fuel with
    | zero => simp at hfuel
    | succ f =>
      exact ⟨[], [], «end», rfl, by simp, by simp, rangeLoop_at_end a b _ _ _ _ _ f rfl, rfl⟩
  | cons n rs ih =>
    cases fuel with
    | zero => simp at hfuel
    | succ f =>
      have hne : (⟨ptrOr .null (n :: rs), t⟩ : TreeIterator Int V).node_
          ≠ («end» : TreeIterator Int V).node_ := by
        simp [ptrOr, Node.ptr, «end»]
      have hstar : (⟨ptrOr .null (n :: rs), t⟩ : TreeIterator Int V).operator_star
          = some n.entry := rfl
      by_cases hb : b ≤ n.key_
      · refine ⟨[], n :: rs, ⟨n.ptr, t⟩, rfl, by simp, ?_,
          rangeLoop_break a b _ _ _ _ _ f n.entry hne hstar hb, rfl⟩
        intro c hc
        rcases List.mem_cons.mp hc with rfl | hc
        · exact hb
        · have hp := nodes_pairwise t h
          rw [hs, List.pairwise_append, List.pairwise_cons] at hp
          exact le_of_lt (lt_of_le_of_lt hb (hp.2.1.1 c hc))
      · have hlt : n.key_ < b := not_le.mp hb
        have hpp := operator_pp_of_split t h ps rs n hs
        obtain ⟨ms, cs, fin, h1, h2, h3, h4, h5⟩ :=
          ih (ps ++ [n]) (by rw [hs]; simp) f (by simpa using hfuel)
        refine ⟨n :: ms, cs, fin, by rw [h1]; rfl, ?_, h3, ?_, h5⟩
        · intro m hm
          rcases List.mem_cons.mp hm with rfl | hm
          · exact hlt
          · exact h2 m hm
        · rw [rangeLoop_skip a b _ _ _ _ _ _ f n.entry hne hstar hpp hlt (Or.inl rfl)]
          exact h4

theorem rangeLoop_scan [DecidableEq V] (a b : Int) (t : TreeNode Int V)
    (h : IsBST t) (rs ps : List (Node Int V)) (hs : nodes t = ps ++ rs)
    (fuel : Nat) (hfuel : rs.length < fuel) :
    ∃ xs ms cs st fin, rs = xs ++ ms ++ cs ∧ (∀ n ∈ xs, n.key_ < a) ∧
      (∀ n ∈ ms, a ≤ n.key_ ∧ n.key_ < b) ∧ (∀ n ∈ cs, b ≤ n.key_) ∧
      rangeLoop a b «end» fuel ⟨ptrOr .null rs, t⟩ «end» «end» false = some (st, fin) ∧
      ((ms = [] ∧ st.node_ = .null) ∨
        (ms ≠ [] ∧ st = ⟨ptrOr .null ms, t⟩ ∧ fin.node_ = ptrOr .null cs)) := by
  induction rs generalizing ps fuel with
  | nil =>
    cases fuel with
    | zero => simp at hfuel
    | succ f =>
      exact ⟨[], [], [], «end», «end», rfl, by simp, by simp, by simp,
        rangeLoop_at_end a b _ _ _ _ _ f rfl, Or.inl ⟨rfl, rfl⟩⟩
  | cons n rs ih =>
    cases fuel with
    | zero => simp at hfuel
    | succ f =>
      have hne : (⟨ptrOr .null (n :: rs), t⟩ : TreeIterator Int V).node_
          ≠ («end» : TreeIterator Int V).node_ := by
        simp [ptrOr, Node.ptr, «end»]
      have hstar : (⟨ptrOr .null (n :: rs), t⟩ : TreeIterator Int V).operator_star
          = some n.entry := rfl
      have hp := nodes_pairwise t h
      rw [hs, List.pairwise_append, List.pairwise_cons] at hp
      have hpp := operator_pp_of_split t h ps rs n hs
      by_cases hb : b ≤ n.key_
      · refine ⟨[], [], n :: rs, «end», ⟨n.ptr, t⟩, rfl, by simp, by simp, ?_,
          rangeLoop_break a b _ _ _ _ _ f n.entry hne hstar hb, Or.inl ⟨rfl, rfl⟩⟩
        intro c hc
        rcases List.mem_cons.mp hc with rfl | hc
        · exact hb
        · exact le_of_lt (lt_of_le_of_lt hb (hp.2.1.1 c hc))
      · have hlt : n.key_ < b := not_le.mp hb
        by_cases ha : a ≤ n.key_
        · obtain ⟨ms, cs, fin, h1, h2, h3, h4, h5⟩ :=
            rangeLoop_found a b t h ⟨n.ptr, t⟩ rs (ps ++ [n]) (by rw [hs]; simp) f
              (by simpa using hfuel)
          refine ⟨[], n :: ms, cs, ⟨n.ptr, t⟩, fin, by rw [h1]; rfl, by simp, ?_, h3, ?_,
            Or.inr ⟨by simp, rfl, h5⟩⟩
          · intro m hm
            rcases List.mem_cons.mp hm with rfl | hm
            · exact ⟨ha, hlt⟩
            · exact ⟨le_trans ha (le_of_lt (hp.2.1.1 m (by rw [h1]; simp [hm]))), h2 m hm⟩
          · rw [rangeLoop_start a b _ _ _ _ _ f n.entry hne hstar hpp ha hlt]
            exact h4
        · have hlta : n.key_ < a := not_le.mp ha
          obtain ⟨xs, ms, cs, st, fin, h1, h2, h3, h4, h5, h6⟩ :=
            ih (ps ++ [n]) (by rw [hs]; simp) f (by simpa using hfuel)
          refine ⟨n :: xs, ms, cs, st, fin, by rw [h1]; rfl, ?_, h3, h4, ?_, h6⟩
          · intro m hm
            rcases List.mem_cons.mp hm with rfl | hm
            · exact hlta
            · exact h2 m hm
          · rw [rangeLoop_skip a b _ _ _ _ _ _ f n.entry hne hstar hpp hlt (Or.inr hlta)]
            exact h5

theorem filter_range_nodes {V : Type} (a b : Int) (xs ms cs : List (Node Int V))
    (hx : ∀ n ∈ xs, n.key_ < a) (hm : ∀ n ∈ ms, a ≤ n.key_ ∧ n.key_ < b)
    (hc : ∀ n ∈ cs, b ≤ n.key_) :
    ((xs ++ ms ++ cs).map Node.entry).filter (fun e => decide (a ≤ e.1 ∧ e.1 < b))
      = ms.map Node.entry := by
  have h1 : (xs.map Node.entry).filter (fun e => decide (a ≤ e.1 ∧ e.1 < b)) = [] := by
    rw [List.filter_eq_nil_iff]
    intro e he
    obtain ⟨n, hn, rfl⟩ := List.mem_map.mp he
    have := hx n hn
    simp only [Node.entry, decide_eq_true_eq, not_and, not_lt]
    intro h'
    omega
  have h2 : (cs.map Node.entry).filter (fun e => decide (a ≤ e.1 ∧ e.1 < b)) = [] := by
    rw [List.filter_eq_nil_iff]
    intro e he
    obtain ⟨n, hn, rfl⟩ := List.mem_map.mp he
    have := hc n hn
    simp only [Node.entry, decide_eq_true_eq, not_and, not_lt]
    intro _
    exact this
  have h3 : (ms.map Node.entry).filter (fun e => decide (a ≤ e.1 ∧ e.1 < b))
      = ms.map Node.entry := by
    rw [List.filter_eq_self]
    intro e he
    obtain ⟨n, hn, rfl⟩ := List.mem_map.mp he
    simpa [Node.entry] using hm n hn
  rw [List.map_append, List.map_append, List.filter_append, List.filter_append, h1, h2, h3]
  simp

/-! ### Facts on `erase` and `find` -/

theorem eraseSearch_absent (k : K) (t : TreeNode K V) (hk : k ∉ keys t)
    (path0 : List (Step K V)) : ∃ path, eraseSearch k t path0 = (.null, path) := by
  induction t generalizing path0 with
  | null => exact ⟨path0, rfl⟩
  | mk k1 v l r ihl ihr =>
    simp only [keys, List.mem_append, List.mem_cons, not_or] at hk
    obtain ⟨hl, hne, hr⟩ := hk
    simp only [eraseSearch]
    split
    · exact ihl hl _
    · split
      · exact ihr hr _
      · rename_i h1 h2
        exact absurd (le_antisymm (not_lt.mp h2) (not_lt.mp h1)) hne

theorem erase_of_search_leaf (k : K) (t : TreeNode K V) (ck : K) (cv : V)
    (path : List (Step K V)) (hs : eraseSearch k t [] = (.mk ck cv .null .null, path)) :
    erase k t = some (relink path .null) := by
  unfold erase
  rw [hs]
  simp only [TreeNode.isNull, Bool.and_self, if_true]
  cases path with
  | nil => rfl
  | cons s rest => exact relink_leaf s rest

theorem erase_of_search_left (k : K) (t : TreeNode K V) (ck : K) (cv : V)
    (cl cr : TreeNode K V) (s : Step K V) (rest : List (Step K V))
    (hs : eraseSearch k t [] = (.mk ck cv cl cr, s :: rest)) (hleft : s.turn_left = true)
    (hone : (cl = .null ∧ cr ≠ .null) ∨ (cl ≠ .null ∧ cr = .null)) :
    erase k t = some (relink (s :: rest) (if cl.isNull then cr else cl)) := by
  unfold erase
  rw [hs]
  rcases hone with ⟨rfl, hcr⟩ | ⟨hcl, rfl⟩
  · cases cr with
    | null => exact absurd rfl hcr
    | mk a b c d => simp [TreeNode.isNull, relink, hleft]
  · cases cl with
    | null => exact absurd rfl hcl
    | mk a b c d => simp [TreeNode.isNull, relink, hleft]

theorem erase_of_search_both (k : K) (t : TreeNode K V) (ck : K) (cv : V)
    (cl cr : TreeNode K V) (path : List (Step K V)) (p : Node K V)
    (hs : eraseSearch k t [] = (.mk ck cv cl cr, path)) (hl : cl ≠ .null) (hr : cr ≠ .null)
    (hp : maxNode cl = some p) :
    erase k t = some (relink path (.mk p.key_ p.value_ (removeMax cl) cr)) := by
  have hnn : cl.isNull = false ∧ cr.isNull = false := by
    cases cl <;> cases cr <;> simp_all [TreeNode.isNull]
  unfold erase
  rw [hs]
  simp only [hnn.1, hnn.2, Bool.and_self, Bool.or_self, Bool.false_eq_true, if_false,
    eraseBoth_eq cl cr p hp]

theorem eraseSearch_left_child (t : TreeNode K V) (h : IsBST t) (p n : Node K V)
    (hp : p ∈ nodes t) (hpl : p.left = n.ptr) (path0 : List (Step K V)) :
    ∃ s rest, eraseSearch n.key_ t path0 = (n.ptr, s :: rest) ∧ s.turn_left = true := by
  induction t generalizing path0 with
  | null => simp [nodes] at hp
  | mk k v l r ihl ihr =>
    have hnp : n ∈ nodes p.left := by rw [hpl]; exact self_mem_nodes n
    rcases node_mem_cases h hp with ⟨_, hm⟩ | rfl | ⟨_, hm⟩
    · have hnl : n ∈ nodes l := (nodes_subtree l p hm).1 n hnp
      have hlt : n.key_ < k := h.1 _ (node_key_mem hnl)
      simpa [eraseSearch, hlt] using ihl h.2.2.1 hm _
    · have hlt : n.key_ < k := h.1 _ (node_key_mem hnp)
      simp only at hpl
      subst hpl
      exact ⟨⟨k, v, n.ptr, r, true⟩, path0, by simp [eraseSearch, hlt, Node.ptr], rfl⟩
    · have hnr : n ∈ nodes r := (nodes_subtree r p hm).1 n hnp
      have hgt : k < n.key_ := h.2.1 _ (node_key_mem hnr)
      simpa [eraseSearch, hgt, not_lt.mpr (le_of_lt hgt)] using ihr h.2.2.2 hm _

theorem replaceAt_remove (t : TreeNode K V) (h : IsBST t) (n : Node K V) (hn : n ∈ nodes t)
    (new : TreeNode K V) (xs ys : List (K × V))
    (hold : entries n.ptr = xs ++ (n.key_, n.value_) :: ys) (hnew : entries new = xs ++ ys) :
    IsBST (replaceAt n.key_ new t) ∧
    entries (replaceAt n.key_ new t)
      = (entries t).filter (fun e => decide (e.1 ≠ n.key_)) := by
  obtain ⟨us, vs, he, hre⟩ := entries_replaceAt t h n hn
  have hkp := keys_pairwise t h
  have he2 : entries t = (us ++ xs) ++ (n.key_, n.value_) :: (ys ++ vs) := by
    rw [he, hold]
    simp
  have hpw : (((us ++ xs) ++ (n.key_, n.value_) :: (ys ++ vs)).map Prod.fst).Pairwise
      (· < ·) := by
    rw [← he2, ← keys_eq_map_entries]
    exact hkp
  have hent : entries (replaceAt n.key_ new t)
      = (entries t).filter (fun e => decide (e.1 ≠ n.key_)) := by
    rw [he2, filter_key_ne_of_nodup _ _ _ _ hpw, hre, hnew]
    simp
  refine ⟨?_, hent⟩
  apply isBST_of_keys_pairwise
  rw [keys_eq_map_entries, hent]
  rw [keys_eq_map_entries] at hkp
  exact hkp.sublist ((List.filter_sublist _).map _)

theorem eraseSearch_ins (k : K) (v : V) (t : TreeNode K V) (hk : k ∉ keys t)
    (path0 : List (Step K V)) :
    ∃ path, eraseSearch k (ins k v t) path0 = (.mk k v .null .null, path) ∧
      relink path .null = relink path0 t := by
  induction t generalizing path0 with
  | null => exact ⟨path0, by simp [ins, eraseSearch], rfl⟩
  | mk k1 v1 l r ihl ihr =>
    simp only [keys, List.mem_append, List.mem_cons, not_or] at hk
    obtain ⟨hl, hne, hr⟩ := hk
    simp only [ins]
    split
    · rename_i hlt
      obtain ⟨path, h1, h2⟩ := ihl hl (⟨k1, v1, ins k v l, r, true⟩ :: path0)
      exact ⟨path, by simpa [eraseSearch, hlt] using h1, by rw [h2]; simp [relink]⟩
    · split
      · rename_i hnlt hgt
        obtain ⟨path, h1, h2⟩ := ihr hr (⟨k1, v1, l, ins k v r, false⟩ :: path0)
        exact ⟨path, by simpa [eraseSearch, hnlt, hgt] using h1, by rw [h2]; simp [relink]⟩
      · rename_i h1 h2
        exact absurd (le_antisymm (not_lt.mp h2) (not_lt.mp h1)) hne

theorem findLoop_absent (k : K) (top t : TreeNode K V) (hk : k ∉ keys t) :
    findLoop k top t = none := by
  induction t with
  | null => rfl
  | mk k1 v l r ihl ihr =>
    simp only [keys, List.mem_append, List.mem_cons, not_or] at hk
    obtain ⟨hl, hne, hr⟩ := hk
    simp only [findLoop]
    split
    · exact ihl hl
    · split
      · exact ihr hr
      · rename_i h1 h2
        exact absurd (le_antisymm (not_lt.mp h2) (not_lt.mp h1)) hne

theorem find_absent (k : K) (t : TreeNode K V) (hk : k ∉ keys t) : find k t = none :=
  findLoop_absent k t t hk

theorem incrLoop_of_not_found (key : K) (t d : TreeNode K V)
    (h : descentFinds key t = false) : incrLoop key t d = none := by
  induction t generalizing d with
  | null => rfl
  | mk k v l r ihl ihr =>
    simp only [descentFinds] at h
    simp only [incrLoop]
    split
    · rename_i hlt
      rw [if_pos hlt] at h
      exact ihl _ h
    · rename_i hnlt
      rw [if_neg hnlt] at h
      split
      · rename_i hgt
        rw [if_pos hgt] at h
        exact ihr _ h
      · rename_i hngt
        rw [if_neg hngt] at h
        exact absurd h (by simp)

theorem descentFinds_iff_mem (key : K) (t : TreeNode K V) (h : IsBST t) :
    descentFinds key t = true ↔ key ∈ keys t := by
  induction t with
  | null => simp [descentFinds, keys]
  | mk k v l r ihl ihr =>
    obtain ⟨hl, hr, bl, br⟩ := h
    simp only [descentFinds, keys, List.mem_append, List.mem_cons]
    split
    · rename_i hlt
      rw [ihl bl]
      constructor
      · exact Or.inl
      · rintro (h | h | h)
        · exact h
        · exact absurd h (ne_of_lt hlt)
        · exact absurd (hr key h) (not_lt.mpr (le_of_lt hlt))
    · split
      · rename_i hnlt hgt
        rw [ihr br]
        constructor
        · exact fun h => Or.inr (Or.inr h)
        · rintro (h | h | h)
          · exact absurd (hl key h) (not_lt.mpr (le_of_lt hgt))
          · exact absurd h (ne_of_gt hgt)
          · exact h
      · rename_i h1 h2
        simp [le_antisymm (not_lt.mp h2) (not_lt.mp h1)]

theorem erase_root_one_child (k : K) (v : V) (ck : K) (cv : V) (cl cr : TreeNode K V) :
    erase k (.mk k v .null (.mk ck cv cl cr)) = none ∧
    erase k (.mk k v (.mk ck cv cl cr) .null) = none := by
  constructor <;> simp [erase, eraseSearch, TreeNode.isNull]

/-! ## The claims -/

/-- C3: on a tree with the BST property, `insert(k, v)` gives a tree with the BST property
whose keys are those of the tree and `k`, in which `k` has the value `v` and no other
value, and in which the entries of the other keys are those of the original tree. -/
theorem insert_spec (t : TreeNode K V) (k : K) (v : V) (h : IsBST t) :
    IsBST (insert k v t) ∧
    (∀ j, j ∈ keys (insert k v t) ↔ j = k ∨ j ∈ keys t) ∧
    (∀ w, (k, w) ∈ entries (insert k v t) ↔ w = v) ∧
    (∀ j w, j ≠ k → ((j, w) ∈ entries (insert k v t) ↔ (j, w) ∈ entries t)) := by
  rw [insert_eq_ins]
  refine ⟨isBST_ins k v t h, mem_keys_ins k v t, ?_, ?_⟩
  · intro w
    rw [mem_entries_ins k v t h]
    simp
  · intro j w hj
    rw [mem_entries_ins k v t h]
    simp [hj]

/-- C10: on a tree with the BST property, after `insert(k, v1)` and `insert(k, v2)` the only
entry with key `k` is `(k, v2)`; the second insert changes neither the number of nodes,
nor the shape, nor the keys, nor the entry of any other key. -/
theorem insert_twice (t : TreeNode K V) (k : K) (v1 v2 : V) (h : IsBST t) :
    (entries (insert k v2 (insert k v1 t))).filter (fun p => decide (p.1 = k)) = [(k, v2)] ∧
    size (insert k v2 (insert k v1 t)) = size (insert k v1 t) ∧
    shape (insert k v2 (insert k v1 t)) = shape (insert k v1 t) ∧
    keys (insert k v2 (insert k v1 t)) = keys (insert k v1 t) ∧
    entries (insert k v2 (insert k v1 t)) =
      (entries (insert k v1 t)).map (fun p => if p.1 = k then (k, v2) else p) := by
  simp only [insert_eq_ins]
  have hb : IsBST (ins k v1 t) := isBST_ins k v1 t h
  have hm : k ∈ keys (ins k v1 t) := (mem_keys_ins k v1 t k).mpr (Or.inl rfl)
  exact ⟨filter_entries_ins k v2 _ hb, ins_overwrite k v2 _ hb hm⟩

/-- Witness of `insert_spec`: inserting key 4 into the chain 5, 8, 9. -/
theorem insert_spec_witness :
    IsBST chain589 ∧ IsBST (insert 4 40 chain589) ∧
    (∀ w, ((4 : Int), w) ∈ entries (insert 4 40 chain589) ↔ w = 40) :=
  ⟨by decide, (insert_spec chain589 4 40 (by decide)).1,
    (insert_spec chain589 4 40 (by decide)).2.2.1⟩

/-- Witness of `insert_twice`: key 8 inserted twice into the chain 5, 8, 9. -/
theorem insert_twice_witness :
    IsBST chain589 ∧
    (entries (insert 8 2 (insert 8 1 chain589))).filter (fun p => decide (p.1 = 8))
      = [((8 : Int), (2 : Int))] :=
  ⟨by decide, (insert_twice chain589 8 1 2 (by decide)).1⟩

/-- C1, failing inputs: the chain 5, 8, 9 has the BST property and holds key 8, whose node
is the right child of 5 and has one child; after `erase(8)` the tree has lost the BST
property, still holds the entry of key 8, and the descent by key comparisons still
reaches key 8.  On the tree 5, 8 the call `erase(5)` (root with one child) dereferences
the null `parent`. -/
theorem erase_postcondition_fails :
    insertAll [(5, 50), (8, 80), (9, 90)] .null = chain589 ∧
    IsBST chain589 ∧ 8 ∈ keys chain589 ∧
    (∃ t, erase 8 chain589 = some t ∧ ¬ IsBST t ∧ 8 ∈ keys t ∧
      (8, 80) ∈ entries t ∧ descentFinds 8 t = true) ∧
    IsBST (insert 8 80 (insert 5 50 (.null : TreeNode Int Int))) ∧
    erase 5 (insert 8 80 (insert 5 50 (.null : TreeNode Int Int))) = none := by
  refine ⟨by decide, by decide, by decide,
    ⟨_, rfl, by decide, by decide, by decide, by decide⟩, by decide, by decide⟩

/-- C2, failing input: in the chain 5, 8, 9 the node of key 8 is the right child of 5 and
has the sole child 9; `erase(8)` writes that child into the left slot of 5 and leaves
the right slot of 5 pointing to the node of key 8. -/
theorem erase_one_child_writes_left :
    insertAll [(5, 50), (8, 80), (9, 90)] .null = chain589 ∧
    erase 8 chain589 =
      some (.mk 5 50 (.mk 9 90 .null .null) (.mk 8 80 .null (.mk 9 90 .null .null))) ∧
    erase 8 chain589 ≠ some (.mk 5 50 .null (.mk 9 90 .null .null)) := by
  decide

/-- C4, failing input: `insert(5)`, `insert(8)`, `insert(9)`, `erase(8)` on the empty tree
give a tree whose in-order list of keys is 9, 5, 8, 9. -/
theorem inorder_not_increasing_after_erase :
    ∃ t, runCalls [.insert 5 50, .insert 8 80, .insert 9 90, .erase 8]
        (.null : TreeNode Int Int) = some t ∧
      keys t = [9, 5, 8, 9] ∧ ¬ (keys t).Sorted (· < ·) := by
  refine ⟨_, rfl, by decide, by decide⟩

/-- C6: on a tree with the BST property the loop from `begin()` to `end()` terminates (any
fuel above the number of nodes is enough) and visits exactly the in-order list of entries:
as many entries as the tree has nodes, with strictly increasing keys, so each key once. -/
theorem iterate_begin_end [DecidableEq V] (t : TreeNode K V) (h : IsBST t) (fuel : Nat)
    (hfuel : size t < fuel) :
    iterate fuel («begin» t) «end» = some (entries t) ∧
    (entries t).length = size t ∧
    (entries t).map Prod.fst = keys t ∧
    (keys t).Sorted (· < ·) ∧ (keys t).Nodup := by
  have hseg := iterate_segment t .null h (nodes t) [] [] (by simp) fuel
    (by rw [length_nodes]; exact hfuel)
  have hk := keys_pairwise t h
  refine ⟨?_, ?_, (keys_eq_map_entries t).symm, hk, ?_⟩
  · rw [entries_eq_map_nodes, ← hseg]
    simp [«begin», «end», beginLoop_eq, ptrOr]
  · rw [entries_eq_map_nodes, List.length_map, length_nodes]
  · exact hk.imp (fun hab => ne_of_lt hab)

/-- Witness of `iterate_begin_end`: the tree of the keys 5, 3, 8, 2, 4, 7, 9. -/
theorem iterate_begin_end_witness :
    IsBST tree7 ∧ size tree7 < 8 ∧
    iterate 8 («begin» tree7) «end»
      = some [(2, 20), (3, 30), (4, 40), (5, 50), (7, 70), (8, 80), (9, 90)] :=
  ⟨by decide, by decide, (iterate_begin_end tree7 (by decide) 8 (by decide)).1⟩

/-- C7: on a tree `t` with the BST property, `operator++` on an iterator at a node `n` of `t`
whose stored top is `t` succeeds and keeps the top; the new position is either the end
position (then no key of `t` is above the key of `n`) or a node of `t` whose key is the
least key of `t` above the key of `n`. -/
theorem operator_pp_successor [DecidableEq V] (t : TreeNode K V) (h : IsBST t)
    (n : Node K V) (hn : n ∈ nodes t) :
    ∃ it, TreeIterator.operator_pp ⟨n.ptr, t⟩ = some it ∧ it.top_ = t ∧
      ((it.operator_eq «end» = true ∧ ∀ j ∈ keys t, j ≤ n.key_) ∨
       (∃ m ∈ nodes t, it.node_ = m.ptr ∧ n.key_ < m.key_ ∧
          ∀ j ∈ keys t, n.key_ < j → m.key_ ≤ j)) := by
  obtain ⟨xs, ys, hs⟩ := List.append_of_mem hn
  refine ⟨_, operator_pp_of_split t h xs ys n hs, rfl, ?_⟩
  have hp := nodes_pairwise t h
  rw [hs, List.pairwise_append, List.pairwise_cons] at hp
  obtain ⟨_, ⟨hny, hys⟩, hxn⟩ := hp
  cases ys with
  | nil =>
    left
    refine ⟨by simp [TreeIterator.operator_eq, «end», ptrOr], ?_⟩
    intro j hj
    rw [keys_eq_map_nodes, hs, List.mem_map] at hj
    obtain ⟨a, ha, rfl⟩ := hj
    rcases List.mem_append.mp ha with ha | ha
    · exact le_of_lt (hxn a ha n (List.mem_cons_self _ _))
    · rw [List.mem_singleton.mp ha]
  | cons m ys =>
    right
    refine ⟨m, by rw [hs]; simp, rfl, hny m (List.mem_cons_self _ _), ?_⟩
    intro j hj hlt
    rw [keys_eq_map_nodes, hs, List.mem_map] at hj
    obtain ⟨a, ha, rfl⟩ := hj
    rcases List.mem_append.mp ha with ha | ha
    · exact absurd (hxn a ha n (List.mem_cons_self _ _)) (not_lt.mpr (le_of_lt hlt))
    · rcases List.mem_cons.mp ha with rfl | ha
      · exact absurd hlt (lt_irrefl _)
      · rcases List.mem_cons.mp ha with rfl | ha
        · exact le_rfl
        · exact le_of_lt ((List.pairwise_cons.mp hys).1 a ha)

/-- Witness of `operator_pp_successor`: from the node of key 4 of the tree of the keys
5, 3, 8, 2, 4, 7, 9 the increment goes to the root, which holds key 5. -/
theorem operator_pp_successor_witness :
    IsBST tree7 ∧ (⟨4, 40, .null, .null⟩ : Node Int Int) ∈ nodes tree7 ∧
    ∃ it, TreeIterator.operator_pp ⟨(⟨4, 40, .null, .null⟩ : Node Int Int).ptr, tree7⟩
        = some it ∧ it.top_ = tree7 ∧
      ((it.operator_eq «end» = true ∧ ∀ j ∈ keys tree7, j ≤ 4) ∨
       (∃ m ∈ nodes tree7, it.node_ = m.ptr ∧ 4 < m.key_ ∧
          ∀ j ∈ keys tree7, 4 < j → m.key_ ≤ j)) :=
  ⟨by decide, by simp [nodes, tree7],
    operator_pp_successor tree7 (by decide) ⟨4, 40, .null, .null⟩ (by simp [nodes, tree7])⟩

/-- C9: on a tree with the BST property in which the node holding `k` has two children `l`
and `r`, `erase(k)` succeeds; with `p` the maximum-keyed node of `l` (it has no right
child and its key is the greatest of `l`), the node holding `k` now holds the key and the
value of `p`, its left subtree is `l` with `p` replaced by the left child of `p`, its
right subtree is `r`; the result has the BST property and its in-order lists of entries
and of keys are those of the original tree without `k`. -/
theorem erase_two_children (t : TreeNode K V) (h : IsBST t) (k : K) (v : V)
    (l r : TreeNode K V) (hn : ⟨k, v, l, r⟩ ∈ nodes t) (hl : l ≠ .null) (hr : r ≠ .null) :
    ∃ p, maxNode l = some p ∧ p.right = .null ∧ (∀ j ∈ keys l, j ≤ p.key_) ∧
      erase k t = some (replaceAt k (.mk p.key_ p.value_ (removeMax l) r) t) ∧
      IsBST (replaceAt k (.mk p.key_ p.value_ (removeMax l) r) t) ∧
      entries (replaceAt k (.mk p.key_ p.value_ (removeMax l) r) t)
        = (entries t).filter (fun e => decide (e.1 ≠ k)) ∧
      keys (replaceAt k (.mk p.key_ p.value_ (removeMax l) r) t)
        = (keys t).filter (fun j => decide (j ≠ k)) := by
  obtain ⟨p, hp⟩ := maxNode_isSome l hl
  obtain ⟨path, hs, hre⟩ := eraseSearch_of_mem t h ⟨k, v, l, r⟩ hn []
  obtain ⟨xs, ys, he, hnew⟩ := entries_replaceAt t h ⟨k, v, l, r⟩ hn
  have hkp := keys_pairwise t h
  have hent : entries (replaceAt k (.mk p.key_ p.value_ (removeMax l) r) t)
      = (entries t).filter (fun e => decide (e.1 ≠ k)) := by
    have he2 : entries t
        = (xs ++ entries (removeMax l) ++ [p.entry]) ++ (k, v) :: (entries r ++ ys) := by
      rw [he]
      simp [Node.ptr, entries, entries_removeMax l p hp]
    have hpw : ((xs ++ entries (removeMax l) ++ [p.entry] ++ (k, v) :: (entries r ++ ys)).map
        Prod.fst).Pairwise (· < ·) := by
      rw [← he2, ← keys_eq_map_entries]
      exact hkp
    rw [he2, filter_key_ne_of_nodup _ _ k v hpw, hnew]
    simp [entries, Node.entry]
  have hkeys : keys (replaceAt k (.mk p.key_ p.value_ (removeMax l) r) t)
      = (keys t).filter (fun j => decide (j ≠ k)) := by
    rw [keys_eq_map_entries, hent, keys_eq_map_entries, List.filter_map]
    rfl
  refine ⟨p, hp, maxNode_right l p hp, ?_, ?_, ?_, hent, hkeys⟩
  · intro j hj
    have hlp := (keys_pairwise l (node_isBST t h _ hn).1)
    rw [keys_removeMax l p hp] at hj hlp
    rcases List.mem_append.mp hj with hj | hj
    · exact le_of_lt ((List.pairwise_append.mp hlp).2.2 j hj _ (by simp))
    · rw [List.mem_singleton.mp hj]
  · have hnn : l.isNull = false ∧ r.isNull = false := by
      cases l <;> cases r <;> simp_all [TreeNode.isNull]
    unfold erase
    rw [hs]
    simp only [Node.ptr, hnn.1, hnn.2, Bool.and_self, Bool.or_self, Bool.false_eq_true,
      if_false, eraseBoth_eq l r p hp, hre, relink]
  · apply isBST_of_keys_pairwise
    rw [hkeys]
    exact hkp.filter _

/-- Witness of `erase_two_children`: `erase(5)` on the tree of the keys 5, 3, 8, 2, 4, 7, 9;
the root then holds the entry of key 4 and the in-order keys are 2, 3, 4, 7, 8, 9. -/
theorem erase_two_children_witness :
    IsBST tree7 ∧
    insertAll [(5, 50), (3, 30), (8, 80), (2, 20), (4, 40), (7, 70), (9, 90)] .null = tree7 ∧
    ∃ t, erase 5 tree7 = some t ∧ IsBST t ∧ keys t = [2, 3, 4, 7, 8, 9] ∧
      t = .mk 4 40 (.mk 3 30 (.mk 2 20 .null .null) .null)
            (.mk 8 80 (.mk 7 70 .null .null) (.mk 9 90 .null .null)) := by
  obtain ⟨p, hp, _, _, he, hb, _, _⟩ :=
    erase_two_children tree7 (by decide) 5 50
      (.mk 3 30 (.mk 2 20 .null .null) (.mk 4 40 .null .null))
      (.mk 8 80 (.mk 7 70 .null .null) (.mk 9 90 .null .null))
      (by simp [nodes, tree7]) (by simp) (by simp)
  have ht := he.symm.trans (show erase 5 tree7 =
      some (.mk 4 40 (.mk 3 30 (.mk 2 20 .null .null) .null)
        (.mk 8 80 (.mk 7 70 .null .null) (.mk 9 90 .null .null))) from by decide)
  rw [Option.some.injEq] at ht
  refine ⟨by decide, by decide, _, he, hb, ?_, ht⟩
  rw [ht]
  decide

/-- C8: on a tree with integer keys and the BST property, `range(low, high)` returns a view
(any fuel above the number of nodes is enough for its loop) and the loop from the
`begin()` to the `end()` of the view visits exactly the entries of the tree with
`low <= key < high`, in the in-order of the tree, which is ascending in the keys. -/
theorem range_iterate [DecidableEq V] (t : TreeNode Int V) (h : IsBST t) (low high : Int)
    (fuel : Nat) (hfuel : size t < fuel) :
    ∃ s, range fuel low high t = some s ∧
      iterate fuel s.begin s.end
        = some ((entries t).filter (fun e => decide (low ≤ e.1 ∧ e.1 < high))) ∧
      (((entries t).filter (fun e => decide (low ≤ e.1 ∧ e.1 < high))).map Prod.fst).Sorted
        (· < ·) := by
  have hsorted : (((entries t).filter (fun e => decide (low ≤ e.1 ∧ e.1 < high))).map
      Prod.fst).Sorted (· < ·) := by
    have hk := keys_pairwise t h
    rw [keys_eq_map_entries] at hk
    exact hk.sublist ((List.filter_sublist _).map _)
  obtain ⟨f, rfl⟩ : ∃ f, fuel = f + 1 := ⟨fuel - 1, by omega⟩
  by_cases hab : low < high
  · obtain ⟨xs, ms, cs, st, fin, h1, h2, h3, h4, h5, h6⟩ :=
      rangeLoop_scan low high t h (nodes t) [] (by simp) (f + 1)
        (by rw [length_nodes]; exact hfuel)
    have hbegin : («begin» t : TreeIterator Int V) = ⟨ptrOr .null (nodes t), t⟩ := by
      simp [«begin», beginLoop_eq]
    have hfilter := filter_range_nodes low high xs ms cs h2 h3 h4
    rw [← h1, ← entries_eq_map_nodes] at hfilter
    rcases h6 with ⟨hm, hst⟩ | ⟨hm, hst, hfin⟩
    · refine ⟨⟨st, «end»⟩, ?_, ?_, hsorted⟩
      · simp only [range, ge_iff_le, not_le.mpr hab, if_false, hbegin, h5]
        simp [TreeIterator.operator_eq, hst, «end»]
      · rw [hfilter, hm]
        exact iterate_succ_of_eq f _ _ hst
    · have hstn : st.node_ ≠ («end» : TreeIterator Int V).node_ := by
        rw [hst]
        cases ms with
        | nil => exact absurd rfl hm
        | cons m ms => simp [ptrOr, Node.ptr, «end»]
      refine ⟨⟨st, fin⟩, ?_, ?_, hsorted⟩
      · simp only [range, ge_iff_le, not_le.mpr hab, if_false, hbegin, h5]
        simp [TreeIterator.operator_eq, hstn]
      · rw [hfilter]
        have hseg := iterate_segment t fin.top_ h ms xs cs (by rw [← h1]) (f + 1) (by
          have : (nodes t).length = size t := length_nodes t
          rw [h1] at this
          simp only [List.length_append] at this
          omega)
        rw [ptrOr_append, ptrOr_of_ne_nil _ .null hm, ← hfin] at hseg
        simpa [Subrange.begin, Subrange.end, hst] using hseg
  · have hba : high ≤ low := not_lt.mp hab
    refine ⟨⟨«end», «end»⟩, by simp [range, hba], ?_, hsorted⟩
    have : (entries t).filter (fun e => decide (low ≤ e.1 ∧ e.1 < high)) = [] := by
      rw [List.filter_eq_nil_iff]
      intro e _
      simp only [decide_eq_true_eq, not_and, not_lt]
      intro h'
      omega
    rw [this]
    exact iterate_succ_of_eq f _ _ rfl

/-- Witness of `range_iterate`: on the keys 1, 3, 5, 7, 9 the view `range(3, 7)` yields the
entries of 3 and 5, the views `range(7, 3)` and `range(10, 20)` yield nothing. -/
theorem range_iterate_witness :
    IsBST chain13579 ∧ size chain13579 < 6 ∧
    (∃ s, range 6 3 7 chain13579 = some s ∧
      iterate 6 s.begin s.end
        = some ((entries chain13579).filter (fun e => decide (3 ≤ e.1 ∧ e.1 < 7))) ∧
      (((entries chain13579).filter (fun e => decide (3 ≤ e.1 ∧ e.1 < 7))).map
        Prod.fst).Sorted (· < ·)) ∧
    (entries chain13579).filter (fun e => decide (3 ≤ e.1 ∧ e.1 < 7)) = [(3, 30), (5, 50)] ∧
    (range 6 7 3 chain13579).bind (fun s => iterate 6 s.begin s.end) = some [] ∧
    (range 6 10 20 chain13579).bind (fun s => iterate 6 s.begin s.end) = some [] :=
  ⟨by decide, by decide, range_iterate chain13579 (by decide) 3 7 6 (by decide),
    by decide, by decide, by decide⟩

/-- C11: when `k` is not a key of the tree, `erase(k)` returns the tree itself, with the
same shape, keys and values (the BST property is not needed). -/
theorem erase_absent (t : TreeNode K V) (k : K) (hk : k ∉ keys t) : erase k t = some t := by
  obtain ⟨path, hs⟩ := eraseSearch_absent k t hk []
  unfold erase
  rw [hs]

/-- Witness of `erase_absent`: key 7 is not in the chain 5, 8, 9. -/
theorem erase_absent_witness :
    (7 : Int) ∉ keys chain589 ∧ IsBST chain589 ∧ erase 7 chain589 = some chain589 :=
  ⟨by decide, by decide, erase_absent chain589 7 (by decide)⟩

/-- C12, failing input: in the tree of the keys 5, 3, 8, 2, 4, 7, 9, which has the BST
property, 6 is not a key; the descent of `find(6)` ends on a null `cur_node` and reaches
`return nullptr;`, which yields no iterator, so no iterator equal to `end()` is
returned. -/
theorem find_absent_key_returns_nothing :
    insertAll [(5, 50), (3, 30), (8, 80), (2, 20), (4, 40), (7, 70), (9, 90)] .null = tree7 ∧
    IsBST tree7 ∧ (6 : Int) ∉ keys tree7 ∧ find 6 tree7 = none := by
  decide

/-- C13: when `low >= high`, `range(low, high)` returns, on any tree and before its loop,
the view whose two bounds are `end()`; the loop over this view visits nothing. -/
theorem range_empty [DecidableEq V] (t : TreeNode Int V) (low high : Int) (fuel : Nat)
    (hge : low ≥ high) :
    ∃ s, range fuel low high t = some s ∧
      s.begin.operator_eq «end» = true ∧ s.end.operator_eq «end» = true ∧
      s.begin = «end» ∧ s.end = «end» ∧
      ∀ f, iterate (f + 1) s.begin s.end = some [] := by
  refine ⟨⟨«end», «end»⟩, by simp [range, hge], by simp [Subrange.begin, TreeIterator.operator_eq],
    by simp [Subrange.end, TreeIterator.operator_eq], rfl, rfl, fun f => ?_⟩
  exact iterate_succ_of_eq f _ _ rfl

/-- Witness of `range_empty`: `range(7, 3)` on the keys 1, 3, 5, 7, 9. -/
theorem range_empty_witness :
    (7 : Int) ≥ 3 ∧
    ∃ s, range 0 7 3 chain13579 = some s ∧
      s.begin.operator_eq «end» = true ∧ s.end.operator_eq «end» = true ∧
      s.begin = «end» ∧ s.end = «end» ∧
      ∀ f, iterate (f + 1) s.begin s.end = some [] :=
  ⟨by decide, range_empty chain13579 7 3 0 (by decide)⟩

/-- C14, failing input: on the empty tree `find(k)` goes straight to `return nullptr;` and
yields no iterator, for every key `k`; on the same tree `begin()` is equal to `end()`
and `erase(k)` returns the empty tree. -/
theorem empty_tree_find_returns_nothing [DecidableEq V] (k : K) :
    find k (.null : TreeNode K V) = none ∧
    («begin» (.null : TreeNode K V)).operator_eq «end» = true ∧
    erase k (.null : TreeNode K V) = some .null := by
  refine ⟨rfl, ?_, rfl⟩
  simp [«begin», beginLoop, «end», TreeIterator.operator_eq]

/-- C15, failing input: the tree built by `insert(5)`, `insert(8)` has the BST property and
its root holds key 5 and has one child; `erase(5)` reaches `parent->left = ...` with a
null `parent` and does not complete. -/
theorem erase_root_with_one_child_fails :
    insertAll [(5, 50), (8, 80)] .null
      = (.mk 5 50 .null (.mk 8 80 .null .null) : TreeNode Int Int) ∧
    IsBST (.mk 5 50 .null (.mk 8 80 .null .null) : TreeNode Int Int) ∧
    erase 5 (.mk 5 50 .null (.mk 8 80 .null .null) : TreeNode Int Int) = none ∧
    erase 5 (.mk 5 50 .null (.mk 8 80 .null .null) : TreeNode Int Int)
      ≠ some (.mk 8 80 .null .null) := by
  decide

/-- C16: on a tree with the BST property, for a node `n` that has no child, or two
children, or exactly one child and is the left child of a node `p` of the tree,
`erase` of the key of `n` succeeds, the result has the BST property and its in-order
list of entries is that of the tree without the entry of that key. -/
theorem erase_good_cases (t : TreeNode K V) (h : IsBST t) (n : Node K V) (hn : n ∈ nodes t)
    (hcase : (n.left = .null ∧ n.right = .null) ∨ (n.left ≠ .null ∧ n.right ≠ .null) ∨
      (((n.left = .null ∧ n.right ≠ .null) ∨ (n.left ≠ .null ∧ n.right = .null)) ∧
        ∃ p ∈ nodes t, p.left = n.ptr)) :
    ∃ t1, erase n.key_ t = some t1 ∧ IsBST t1 ∧
      entries t1 = (entries t).filter (fun e => decide (e.1 ≠ n.key_)) := by
  obtain ⟨path, hs, hre⟩ := eraseSearch_of_mem t h n hn []
  simp only [relink] at hre
  rcases hcase with ⟨h1, h2⟩ | ⟨h1, h2⟩ | ⟨hone, p, hp, hpl⟩
  · have hs1 : eraseSearch n.key_ t [] = (.mk n.key_ n.value_ .null .null, path) := by
      simpa [Node.ptr, h1, h2] using hs
    refine ⟨_, (erase_of_search_leaf _ t _ _ path hs1).trans (by rw [hre]), ?_⟩
    exact replaceAt_remove t h n hn .null [] [] (by simp [Node.ptr, entries, h1, h2]) rfl
  · obtain ⟨q, hq⟩ := maxNode_isSome n.left h1
    refine ⟨_, (erase_of_search_both _ t _ _ _ _ path q hs h1 h2 hq).trans (by rw [hre]), ?_⟩
    refine replaceAt_remove t h n hn _ (entries (removeMax n.left) ++ [q.entry])
      (entries n.right) ?_ ?_
    · simp [Node.ptr, entries, entries_removeMax n.left q hq]
    · simp [entries, Node.entry]
  · obtain ⟨s, rest, hs2, hleft⟩ := eraseSearch_left_child t h p n hp hpl []
    have hpath : path = s :: rest := by
      have := hs.symm.trans hs2
      exact (Prod.mk.injEq _ _ _ _ ▸ this).2
    rw [hpath] at hs hre
    refine ⟨_, (erase_of_search_left _ t _ _ _ _ s rest hs hleft hone).trans (by rw [hre]), ?_⟩
    rcases hone with ⟨h1, _⟩ | ⟨_, h2⟩
    · refine replaceAt_remove t h n hn _ [] (entries n.right) ?_ ?_
      · simp [Node.ptr, entries, h1]
      · simp [h1, TreeNode.isNull]
    · have hnl : n.left.isNull = false := by
        cases hl : n.left with
        | null => simp_all
        | mk a b c d => rfl
      refine replaceAt_remove t h n hn _ (entries n.left) [] ?_ ?_
      · simp [Node.ptr, entries, h2]
      · simp [hnl]

/-- Witness of `erase_good_cases`: the leaf holding key 9 in the chain 5, 8, 9. -/
theorem erase_good_cases_witness :
    IsBST chain589 ∧ (⟨9, 90, .null, .null⟩ : Node Int Int) ∈ nodes chain589 ∧
    ∃ t1, erase 9 chain589 = some t1 ∧ IsBST t1 ∧
      entries t1 = (entries chain589).filter (fun e => decide (e.1 ≠ 9)) :=
  ⟨by decide, by simp [nodes, chain589],
    erase_good_cases chain589 (by decide) ⟨9, 90, .null, .null⟩ (by simp [nodes, chain589])
      (Or.inl ⟨rfl, rfl⟩)⟩

/-- C17: when `k` is not a key of the tree, `erase(k)` after `insert(k, v)` returns the tree
itself, with the same shape, keys and values (the BST property is not needed). -/
theorem erase_insert (t : TreeNode K V) (k : K) (v : V) (hk : k ∉ keys t) :
    erase k (insert k v t) = some t := by
  obtain ⟨path, hs, hre⟩ := eraseSearch_ins k v t hk []
  rw [insert_eq_ins, erase_of_search_leaf k _ k v path hs, hre]
  rfl

/-- Witness of `erase_insert`: key 6 inserted into the tree of the keys 5, 3, 8, 2, 4, 7, 9
and erased again. -/
theorem erase_insert_witness :
    (6 : Int) ∉ keys tree7 ∧ IsBST tree7 ∧ erase 6 (insert 6 60 tree7) = some tree7 :=
  ⟨by decide, by decide, erase_insert tree7 6 60 (by decide)⟩

/-- C18: when the descent from the stored top does not reach a node holding the key of the
node the iterator is at, `operator++` returns the iterator unchanged, and so does any
number of increments; the iterator is not equal to `end()`. -/
theorem operator_pp_stale [DecidableEq V] (n : Node K V) (top : TreeNode K V)
    (h : descentFinds n.key_ top = false) :
    TreeIterator.operator_pp ⟨n.ptr, top⟩ = some ⟨n.ptr, top⟩ ∧
    (∀ m, advance m ⟨n.ptr, top⟩ = some ⟨n.ptr, top⟩) ∧
    (⟨n.ptr, top⟩ : TreeIterator K V).operator_eq «end» = false := by
  have hpp : TreeIterator.operator_pp ⟨n.ptr, top⟩ = some ⟨n.ptr, top⟩ := by
    simp only [TreeIterator.operator_pp, Node.ptr]
    split
    · rfl
    · rw [incrLoop_of_not_found n.key_ top .null h]
  refine ⟨hpp, fun m => ?_, by simp [TreeIterator.operator_eq, «end», Node.ptr]⟩
  induction m with
  | zero => rfl
  | succ m ih => simp only [advance, hpp, ih]

/-- Witness of `operator_pp_stale`: an iterator at the leaf holding key 2 of the tree of the
keys 5, 3, 8, 2, 4, 7, 9, after `erase(2)` has detached that leaf. -/
theorem operator_pp_stale_witness :
    erase 2 tree7 = some (.mk 5 50 (.mk 3 30 .null (.mk 4 40 .null .null))
      (.mk 8 80 (.mk 7 70 .null .null) (.mk 9 90 .null .null))) ∧
    descentFinds (2 : Int) (.mk 5 50 (.mk 3 30 .null (.mk 4 40 .null .null))
      (.mk 8 80 (.mk 7 70 .null .null) (.mk 9 90 .null .null)) : TreeNode Int Int) = false ∧
    advance 3 ⟨(⟨2, 20, .null, .null⟩ : Node Int Int).ptr,
        .mk 5 50 (.mk 3 30 .null (.mk 4 40 .null .null))
          (.mk 8 80 (.mk 7 70 .null .null) (.mk 9 90 .null .null))⟩
      = some ⟨(⟨2, 20, .null, .null⟩ : Node Int Int).ptr,
        .mk 5 50 (.mk 3 30 .null (.mk 4 40 .null .null))
          (.mk 8 80 (.mk 7 70 .null .null) (.mk 9 90 .null .null))⟩ :=
  ⟨by decide, by decide,
    (operator_pp_stale ⟨2, 20, .null, .null⟩ _ (by decide)).2.1 3⟩

end SearchingTree
